import Mathlib

/-!
Shallow embedding of `autoclaude`'s DAG-based batch processing core
(`src/autoclaude/dag.py` and the DAG data models of
`src/autoclaude/models.py`), together with proofs of the specified
properties.

Modelling conventions:
* Python `int` ticket identifiers become `Int`.
* Python dicts become association lists (`List (k × v)`) with
  insertion-order upsert, or explicit lookup functions; Python sets are
  lists whose order is irrelevant to every observable output.
* `datetime.now()` is an abstract clock value (`Nat`) passed in as a
  parameter `now`.
* Fallible code returns `Except`/`Option`; the payload of a raised
  exception (e.g. the sorted unresolved ticket set of a `CycleError`,
  or the ticket/prerequisite pair of the `build_dag` `ValueError`)
  is carried in the error value.
* The external effects of the merge queue (git subprocess calls) are
  modelled by oracles (`mergeOk`, `diff`) for the outcomes, plus an
  explicit trace of issued git commands where a claim is about the
  command sequence itself.
* The `while remaining:` loop of `topological_waves` is written with a
  fuel parameter `|remaining| + 1`, which is proved sufficient; every
  iteration of the Python loop removes at least one ticket from
  `remaining` or raises.
-/

namespace AutoClaude

/-- Python `sorted` on a list of ints. -/
def sortInt (l : List Int) : List Int := List.insertionSort (· ≤ ·) l

/-- Python `sorted` on a list of strings. -/
def sortStr (l : List String) : List String := List.insertionSort (· ≤ ·) l

/-- `src/autoclaude/models.py` `ProcessingStatus` (enum). -/
inductive ProcessingStatus where
  | pending
  | analyzing
  | clarifying
  | in_progress
  | blocked
  | failed
  | completed
deriving DecidableEq, Repr

/-- `src/autoclaude/models.py` `ProcessingResult` (dataclass).
Timestamps are abstract clock values. -/
structure ProcessingResult where
  issue_number : Int
  status : ProcessingStatus
  branch_name : Option String := none
  pr_number : Option Int := none
  pr_url : Option String := none
  commits : List String := []
  blocking_question : Option String := none
  error_message : Option String := none
  ci_status : Option String := none
  started_at : Option Nat := none
  completed_at : Option Nat := none
deriving DecidableEq, Repr

/-- `src/autoclaude/models.py` `DAGNode` (dataclass): a ticket in the
dependency graph; `wave = -1` means unassigned. -/
structure DAGNode where
  ticket_number : Int
  depends_on : List Int := []
  wave : Int := -1
deriving DecidableEq, Repr

/-- `src/autoclaude/models.py` `DAGWave` (dataclass). -/
structure DAGWave where
  wave_number : Nat
  tickets : List Int
deriving DecidableEq, Repr

/-- `src/autoclaude/models.py` `MergeConflict` (dataclass). -/
structure MergeConflict where
  ticket_a : Int
  ticket_b : Int
  overlapping_files : List String
deriving DecidableEq, Repr

/-! ### `parse_deps` (dag.py lines 35-51) -/

/-- `deps[child].append(parent)` on a `defaultdict(list)` modelled as an
insertion-ordered association list. -/
def addDep (m : List (Int × List Int)) (c p : Int) : List (Int × List Int) :=
  match m with
  | [] => [(c, [p])]
  | (k, v) :: rest => if k = c then (k, v ++ [p]) :: rest else (k, v) :: addDep rest c p

/-- Python `dict.get(t, [])` on the dependency mapping. -/
def lookupDeps (deps : List (Int × List Int)) (t : Int) : List Int :=
  ((deps.find? (fun p => p.1 == t)).map (·.2)).getD []

/-- Python `str.strip()` on a character list. -/
def strTrim (s : List Char) : List Char :=
  ((s.dropWhile Char.isWhitespace).reverse.dropWhile Char.isWhitespace).reverse

/-- Python `str.split(sep)` (single-character separator, no maxsplit). -/
def splitOnChar (sep : Char) (s : List Char) : List (List Char) :=
  s.foldr
    (fun c acc =>
      if c = sep then [] :: acc else (c :: acc.headD []) :: acc.tail)
    [[]]

/-- Digit string to value; `none` unless the string is a nonempty run of
decimal digits. -/
def digitsVal (s : List Char) : Option Nat :=
  if s = [] then none
  else
    s.foldl
      (fun acc c =>
        match acc with
        | none => none
        | some v => if c.isDigit then some (v * 10 + (c.toNat - '0'.toNat)) else none)
      (some 0)

/-- Python `int(str)` on an already-stripped string: optional sign then
decimal digits, `None` (a raised `ValueError`) otherwise. -/
def parseInt : List Char → Option Int
  | '-' :: rest => (digitsVal rest).map (fun n => -(n : Int))
  | '+' :: rest => (digitsVal rest).map (fun n => (n : Int))
  | s => (digitsVal s).map (fun n => (n : Int))

/-- `parse_deps` (dag.py): parse `"child:parent,..."` into a
`{ticket: [depends_on]}` mapping.  Pairs without `":"` are skipped;
an `int()` failure (`parseInt = none`) makes the whole parse fail, as
the raised Python `ValueError` would.  `pair.split(":", 1)` is modelled
by splitting at the first `':'`. -/
def parse_deps (dep_spec : String) : Option (List (Int × List Int)) :=
  if strTrim dep_spec.data = [] then some []
  else
    (splitOnChar ',' dep_spec.data).foldl
      (fun acc pair =>
        match acc with
        | none => none
        | some m =>
          let pair := strTrim pair
          if ':' ∈ pair then
            let child_str := pair.takeWhile (fun c => c ≠ ':')
            let parent_str := (pair.dropWhile (fun c => c ≠ ':')).tail
            match parseInt (strTrim child_str), parseInt (strTrim parent_str) with
            | some child, some parent => some (addDep m child parent)
            | _, _ => none
          else some m)
      (some [])

/-! ### `build_dag` (dag.py lines 54-69) -/

/-- The data of the `ValueError` raised by `build_dag`:
`f"Ticket #{t} depends on #{dep}, which is not in the ticket list"`. -/
structure ConfigErr where
  t : Int
  dep : Int
deriving DecidableEq, Repr

/-- The rendered message of the `build_dag` `ValueError`. -/
def ConfigErr.message (e : ConfigErr) : String :=
  s!"Ticket #{e.t} depends on #{e.dep}, which is not in the ticket list"

/-- The inner `for dep in node_deps` validation loop of `build_dag`. -/
def checkDeps (all_tickets : List Int) (t : Int) : List Int → Option ConfigErr
  | [] => none
  | dep :: rest =>
    if dep ∈ all_tickets then checkDeps all_tickets t rest else some ⟨t, dep⟩

/-- `build_dag` (dag.py): build one `DAGNode` per ticket, in input order,
validating that every prerequisite is a known ticket. -/
def build_dag (tickets : List Int) (deps : List (Int × List Int)) :
    Except ConfigErr (List DAGNode) :=
  go tickets
where
  go : List Int → Except ConfigErr (List DAGNode)
  | [] => .ok []
  | t :: rest =>
    let node_deps := lookupDeps deps t
    match checkDeps tickets t node_deps with
    | some e => .error e
    | none =>
      match go rest with
      | .ok ns => .ok (⟨t, node_deps, -1⟩ :: ns)
      | .error e => .error e

/-! ### `topological_waves` (dag.py lines 72-112) -/

/-- `node_map[t]`: dict built by one assignment per node, so the **last**
node with a given ticket number wins. -/
def nodeFor (nodes : List DAGNode) (t : Int) : Option DAGNode :=
  nodes.reverse.find? (fun n => n.ticket_number == t)

/-- The prerequisite list the algorithm associates with ticket `t`
(empty for unknown tickets, matching `dict.get` style access). -/
def depsOf (nodes : List DAGNode) (t : Int) : List Int :=
  ((nodeFor nodes t).map (·.depends_on)).getD []

/-- Initial `in_degree[t] = len(node.depends_on)` (last node wins). -/
def initInDeg (nodes : List DAGNode) (t : Int) : Int :=
  ((nodeFor nodes t).map (fun n => (n.depends_on.length : Int))).getD 0

/-- `dependents[p]`: for every node (in list order) and every occurrence
of `p` in its `depends_on`, the node's ticket number is appended. -/
def dependentsOf (nodes : List DAGNode) (p : Int) : List Int :=
  nodes.foldr
    (fun n acc => (n.depends_on.filter (fun d => d == p)).map (fun _ => n.ticket_number) ++ acc)
    []

/-- `node_map[t].wave = wave_num`: mutates the node stored in the dict,
i.e. the last node of the list with ticket number `t`. -/
def setWaveLast (t w : Int) : List DAGNode → List DAGNode
  | [] => []
  | n :: ns =>
    if t ∈ ns.map DAGNode.ticket_number then n :: setWaveLast t w ns
    else if n.ticket_number = t then { n with wave := w } :: ns
    else n :: ns

/-- One ticket identifier per node, deduplicated (= `set(in_degree.keys())`;
the set's iteration order is irrelevant to all outputs). -/
def dagKeys (nodes : List DAGNode) : List Int :=
  (nodes.map DAGNode.ticket_number).dedup

/-- The `while remaining:` loop of `topological_waves` (Kahn's algorithm).
State: `remaining`, the current `in_degree` map, the next wave number and
the (mutable in Python) node list.  Returns the final node list together
with either the wave list or the `CycleError` payload
(`sorted(remaining)`).  The nested
`for t in ready: for child in dependents[t]: in_degree[child] -= 1`
decrements `in_degree[c]` once per occurrence of `c` in `dependents[t]`
for each ready `t`, which is the pointwise subtraction written below. -/
def kahnLoop (dependents : Int → List Int) :
    Nat → List Int → (Int → Int) → Nat → List DAGNode →
    List DAGNode × Except (List Int) (List DAGWave)
  | 0, remaining, _, _, ns => (ns, .error (sortInt remaining))
  | fuel + 1, remaining, inDeg, waveNum, ns =>
    if remaining.isEmpty then (ns, .ok [])
    else
      let ready := remaining.filter (fun t => inDeg t == 0)
      if ready.isEmpty then (ns, .error (sortInt remaining))
      else
        let wave : DAGWave := ⟨waveNum, sortInt ready⟩
        let remaining' := remaining.filter (fun t => !(inDeg t == 0))
        let inDeg' : Int → Int := fun c =>
          inDeg c - ((ready.map (fun p => (dependents p).count c)).sum : Int)
        let ns' := ready.foldl (fun acc t => setWaveLast t (waveNum : Int) acc) ns
        match kahnLoop dependents fuel remaining' inDeg' (waveNum + 1) ns' with
        | (ns'', .ok ws) => (ns'', .ok (wave :: ws))
        | (ns'', .error l) => (ns'', .error l)

/-- `topological_waves` together with the final (mutated) node list. -/
def topological_waves_full (nodes : List DAGNode) :
    List DAGNode × Except (List Int) (List DAGWave) :=
  kahnLoop (dependentsOf nodes) ((dagKeys nodes).length + 1) (dagKeys nodes)
    (initInDeg nodes) 1 nodes

/-- `topological_waves` (dag.py): waves in execution order, or the
`CycleError` payload (the sorted unresolved ticket set). -/
def topological_waves (nodes : List DAGNode) : Except (List Int) (List DAGWave) :=
  (topological_waves_full nodes).2

/-- The node list as left behind by `topological_waves` (Python mutates
the caller's nodes in place). -/
def topological_waves_nodes (nodes : List DAGNode) : List DAGNode :=
  (topological_waves_full nodes).1

/-- The prerequisite edge relation of a node list: `d` is a declared
prerequisite of `t`. -/
def depEdge (nodes : List DAGNode) (d t : Int) : Prop :=
  ∃ n ∈ nodes, n.ticket_number = t ∧ d ∈ n.depends_on

/-- A graph is acyclic when no ticket transitively depends on itself. -/
def Acyclic (nodes : List DAGNode) : Prop :=
  ∀ t, ¬ Relation.TransGen (depEdge nodes) t t

/-! ### `MergeQueue` (dag.py lines 118-242)

Git subprocess effects are modelled by outcome oracles plus, for
`merge_branches`, an explicit trace of the git commands issued
(`_run_git` calls, non-dry-run). -/

/-- One `_run_git` invocation. -/
inductive GitCmd where
  | checkout (ref : String)
  | pull (remote base : String)
  | mergeNoFF (msg branch : String)
  | abortMerge
  | push (remote base : String)
  | fetch (remote : String)
deriving DecidableEq, Repr

/-- `branches[ticket]` for a `{ticket: branch}` dict modelled as an
association list (dict keys are unique). -/
def branchOf (branches : List (Int × String)) (t : Int) : String :=
  (((branches.find? (fun p => p.1 == t)).map Prod.snd).getD "")

/-- `MergeQueue.merge_branches` (dag.py lines 173-213): checkout + pull,
then merge each branch in ascending ticket order (`--no-ff`), aborting a
failed merge and continuing; push iff at least one branch merged.
`mergeOk t b` is the oracle for "the `git merge` of branch `b` for
ticket `t` exited 0".  Returns the merged ticket list and the command
trace. -/
def merge_branches (mergeOk : Int → String → Bool) (remote base : String)
    (branches : List (Int × String)) : List Int × List GitCmd :=
  let sorted := sortInt (branches.map Prod.fst)
  let step := fun (acc : List Int × List GitCmd) (ticket : Int) =>
    let branch := branchOf branches ticket
    if mergeOk ticket branch then
      (acc.1 ++ [ticket], acc.2 ++ [GitCmd.mergeNoFF s!"Merge {branch} (#{ticket})" branch])
    else
      (acc.1, acc.2 ++ [GitCmd.mergeNoFF s!"Merge {branch} (#{ticket})" branch, GitCmd.abortMerge])
  let res := sorted.foldl step ([], [GitCmd.checkout base, GitCmd.pull remote base])
  (res.1, res.2 ++ if res.1.isEmpty then [] else [GitCmd.push remote base])

/-- Python `str.strip()` on a `String`. -/
def pyStrip (s : String) : String := ⟨strTrim s.data⟩

/-- The per-branch file set of `detect_file_overlaps`:
`{f.strip() for f in stdout.splitlines() if f.strip()}` (a set, modelled
as a deduplicated list). -/
def cleanFiles (lines : List String) : List String :=
  ((lines.map pyStrip).filter (fun f => f ≠ "")).dedup

/-- The `for i, t_a in enumerate(l): for t_b in l[i+1:]` pair loop. -/
def orderedPairs : List Int → List (Int × Int)
  | [] => []
  | x :: xs => xs.map (fun y => (x, y)) ++ orderedPairs xs

/-- `MergeQueue.detect_file_overlaps` (dag.py lines 136-171).
`diff t b` is the oracle for `git diff --name-only base...b`: `none`
for a nonzero exit status, otherwise the stdout lines. -/
def detect_file_overlaps (diff : Int → String → Option (List String))
    (branches : List (Int × String)) : List MergeConflict :=
  let files_by : List (Int × List String) :=
    branches.filterMap (fun p =>
      match diff p.1 p.2 with
      | some lines => some (p.1, cleanFiles lines)
      | none => none)
  let filesOf := fun t => (((files_by.find? (fun p => p.1 == t)).map Prod.snd).getD [])
  (orderedPairs (sortInt (files_by.map Prod.fst))).filterMap (fun p =>
    let overlap := (filesOf p.1).filter (fun f => f ∈ filesOf p.2)
    if overlap.isEmpty then none
    else some ⟨p.1, p.2, sortStr overlap.dedup⟩)

/-! ### `DAGProcessor` (dag.py lines 248-422)

The opaque per-ticket work-agent (`TicketProcessor.process_single`
run in a worktree, with exceptions already converted to a failed
`ProcessingResult` by `_process_ticket`) is the oracle `agent`. -/

/-- The synthetic result given to a ticket whose upstream dependency
failed (dag.py lines 308-314). -/
def skipResult (now : Nat) (t : Int) : ProcessingResult :=
  { issue_number := t
    status := .failed
    error_message := some "Skipped: upstream dependency failed"
    started_at := some now
    completed_at := some now }

/-- `DAGProcessor._process_wave` (dag.py lines 287-330): tickets with a
failed declared prerequisite get `skipResult`; the rest are run through
the work-agent (concurrently in Python; the result map is
order-insensitive).  Returns the per-ticket results and the list of
tickets for which the work-agent was invoked. -/
def process_wave (deps_for : Int → List Int) (agent : Int → ProcessingResult) (now : Nat)
    (wave : DAGWave) (failed_tickets : List Int) :
    List (Int × ProcessingResult) × List Int :=
  let skipped := wave.tickets.filter (fun t => (deps_for t).any (fun d => d ∈ failed_tickets))
  let runnable := wave.tickets.filter (fun t => !(deps_for t).any (fun d => d ∈ failed_tickets))
  (skipped.map (fun t => (t, skipResult now t)) ++ runnable.map (fun t => (t, agent t)),
   runnable)

/-- `dict.update` / `dict.__setitem__` on an association list: existing
keys are overwritten in place, new keys appended. -/
def upsert (m : List (Int × ProcessingResult)) (k : Int) (v : ProcessingResult) :
    List (Int × ProcessingResult) :=
  match m with
  | [] => [(k, v)]
  | (k', v') :: rest => if k' = k then (k', v) :: rest else (k', v') :: upsert rest k v

/-- `results_by_ticket.update(wave_results)`. -/
def upsertAll (m adds : List (Int × ProcessingResult)) : List (Int × ProcessingResult) :=
  adds.foldl (fun acc p => upsert acc p.1 p.2) m

/-- The status/error override applied to a completed result whose
branch failed to merge (dag.py lines 405-408); all other fields are
untouched. -/
def mergeFailOverride (r : ProcessingResult) : ProcessingResult :=
  { r with status := .failed, error_message := some "Merge into main failed" }

/-- In-place field override of `results_by_ticket[t]`
(dag.py lines 405-408). -/
def overrideResult (m : List (Int × ProcessingResult)) (t : Int) :
    List (Int × ProcessingResult) :=
  m.map (fun p => if p.1 = t then (p.1, mergeFailOverride p.2) else p)

/-- Mutable orchestrator state across waves. -/
structure RunState where
  results : List (Int × ProcessingResult)
  failed : List Int
  conflicts : List MergeConflict
  invoked : List Int
deriving Repr

/-- Oracles for the external effects of one DAG run. -/
structure RunOracles where
  agent : Int → ProcessingResult
  mergeOk : Int → String → Bool
  diff : Int → String → Option (List String)

/-- The body of the `for wave in waves:` loop of `DAGProcessor.run`
(dag.py lines 368-412): process the wave, collect completed branches and
newly failed tickets, detect overlaps, merge, and mark non-merged
tickets failed. -/
def wave_step (deps_for : Int → List Int) (o : RunOracles) (remote base : String) (now : Nat)
    (st : RunState) (wave : DAGWave) : RunState :=
  let pw := process_wave deps_for o.agent now wave st.failed
  let wres := pw.1
  let results₁ := upsertAll st.results wres
  let completed_branches : List (Int × String) :=
    wres.filterMap (fun p =>
      match p.2.branch_name with
      | some b => if p.2.status = .completed ∧ b ≠ "" then some (p.1, b) else none
      | none => none)
  let failed₁ := st.failed ++ (wres.filter (fun p => p.2.status == .failed)).map Prod.fst
  if completed_branches.isEmpty then
    { results := results₁, failed := failed₁, conflicts := st.conflicts,
      invoked := st.invoked ++ pw.2 }
  else
    let conflicts₁ :=
      if 1 < completed_branches.length then
        st.conflicts ++ detect_file_overlaps o.diff completed_branches
      else st.conflicts
    let merged := (merge_branches o.mergeOk remote base completed_branches).1
    let notMerged := (completed_branches.map Prod.fst).filter (fun t => t ∉ merged)
    { results := notMerged.foldl (fun acc t => overrideResult acc t) results₁
      failed := failed₁ ++ notMerged
      conflicts := conflicts₁
      invoked := st.invoked ++ pw.2 }

/-- Graph-level errors of a run (raised before any ticket executes). -/
inductive DagErr where
  | config (e : ConfigErr)
  | cycle (unresolved : List Int)
deriving DecidableEq, Repr

/-- Observable outcome of a full run (the `DAGResult` fields the claims
are about, plus the ghost `failed`/`invoked` sets). -/
structure RunOutcome where
  waves : List DAGWave
  results : List (Int × ProcessingResult)
  failed : List Int
  conflicts : List MergeConflict
  invoked : List Int
deriving Repr

/-- `DAGProcessor.run` (dag.py lines 332-422): build the DAG, compute
waves, process each wave through executor + merge queue.  (The optional
post-merge test command and the remote refresh touch no state the
claims mention and are omitted from the outcome.) -/
def dag_run (o : RunOracles) (remote base : String) (now : Nat)
    (tickets : List Int) (deps : List (Int × List Int)) : Except DagErr RunOutcome :=
  match build_dag tickets deps with
  | .error e => .error (.config e)
  | .ok nodes =>
    match topological_waves nodes with
    | .error l => .error (.cycle l)
    | .ok waves =>
      let deps_for := depsOf nodes
      let final := waves.foldl (wave_step deps_for o remote base now)
        { results := [], failed := [], conflicts := [], invoked := [] }
      .ok { waves := waves, results := final.results, failed := final.failed,
            conflicts := final.conflicts, invoked := final.invoked }

/-! ## Lemmas -/

theorem sortInt_sorted (l : List Int) : (sortInt l).Sorted (· ≤ ·) :=
  List.sorted_insertionSort _ l

theorem sortInt_perm (l : List Int) : (sortInt l).Perm l :=
  List.perm_insertionSort _ l

theorem mem_sortInt {l : List Int} {t : Int} : t ∈ sortInt l ↔ t ∈ l :=
  (sortInt_perm l).mem_iff

/-- Every wave list produced by the Kahn loop is sorted ascending. -/
theorem kahnLoop_sorted (dependents : Int → List Int) :
    ∀ (fuel : Nat) (remaining : List Int) (inDeg : Int → Int) (waveNum : Nat)
      (ns ns' : List DAGNode) (ws : List DAGWave),
      kahnLoop dependents fuel remaining inDeg waveNum ns = (ns', .ok ws) →
      ∀ w ∈ ws, w.tickets.Sorted (· ≤ ·) := by
  intro fuel
  induction fuel with
  | zero => intro remaining inDeg waveNum ns ns' ws h; simp [kahnLoop] at h
  | succ fuel ih =>
    intro remaining inDeg waveNum ns ns' ws h
    rw [kahnLoop] at h
    dsimp only at h
    split at h
    · cases h; intro w hw; cases hw
    · split at h
      · cases h
      · revert h
        split
        next ns'' ws' heq =>
          intro h
          cases h
          intro w hw
          rcases List.mem_cons.mp hw with rfl | hw'
          · exact sortInt_sorted _
          · exact ih _ _ _ _ _ _ heq w hw'
        next => intro h; cases h

/-- If `topological_waves` succeeds, every wave's ticket list is sorted
(hence the partition is a deterministic function of the input). -/
theorem topological_waves_sorted {nodes : List DAGNode} {ws : List DAGWave}
    (h : topological_waves nodes = .ok ws) : ∀ w ∈ ws, w.tickets.Sorted (· ≤ ·) := by
  unfold topological_waves topological_waves_full at h
  obtain ⟨ns', h'⟩ : ∃ ns', kahnLoop (dependentsOf nodes) ((dagKeys nodes).length + 1)
      (dagKeys nodes) (initInDeg nodes) 1 nodes = (ns', .ok ws) := by
    rcases hk : kahnLoop (dependentsOf nodes) ((dagKeys nodes).length + 1)
      (dagKeys nodes) (initInDeg nodes) 1 nodes with ⟨a, b⟩
    rw [hk] at h; simp at h; subst h; exact ⟨a, rfl⟩
  exact kahnLoop_sorted _ _ _ _ _ _ _ _ h'

/-! ## Claims -/

/-- C8: parsing `"197:200,198:197"`, building the graph over
`{197,…,202}` and computing waves yields exactly the three waves
`[199,200,201,202]`, `[197]`, `[198]`; every wave list produced by
`topological_waves` is sorted ascending, so identical inputs give
identical partitions (the function is deterministic). -/
theorem spec_example_waves :
    (∃ deps nodes,
        parse_deps "197:200,198:197" = some deps ∧
        build_dag [197, 198, 199, 200, 201, 202] deps = .ok nodes ∧
        topological_waves nodes =
          .ok [⟨1, [199, 200, 201, 202]⟩, ⟨2, [197]⟩, ⟨3, [198]⟩]) ∧
    (∀ nodes ws, topological_waves nodes = .ok ws →
        ∀ w ∈ ws, w.tickets.Sorted (· ≤ ·)) := by
  constructor
  · exact ⟨[(197, [200]), (198, [197])],
      [⟨197, [200], -1⟩, ⟨198, [197], -1⟩, ⟨199, [], -1⟩, ⟨200, [], -1⟩,
       ⟨201, [], -1⟩, ⟨202, [], -1⟩], rfl, rfl, rfl⟩
  · exact fun nodes ws h => topological_waves_sorted h

theorem checkDeps_none_iff (all : List Int) (t : Int) (l : List Int) :
    checkDeps all t l = none ↔ ∀ d ∈ l, d ∈ all := by
  induction l with
  | nil => simp [checkDeps]
  | cons d rest ih =>
    by_cases hd : d ∈ all <;> simp [checkDeps, hd, ih]

theorem checkDeps_some {all : List Int} {t : Int} {l : List Int} {e : ConfigErr}
    (h : checkDeps all t l = some e) : e.t = t ∧ e.dep ∈ l ∧ e.dep ∉ all := by
  induction l with
  | nil => simp [checkDeps] at h
  | cons d rest ih =>
    rw [checkDeps] at h
    split at h
    · rcases ih h with ⟨h1, h2, h3⟩
      exact ⟨h1, List.mem_cons_of_mem _ h2, h3⟩
    · cases h
      exact ⟨rfl, List.mem_cons_self _ _, by assumption⟩

theorem build_dag_go_err (tickets : List Int) (deps : List (Int × List Int)) :
    ∀ l : List Int,
      (∃ t ∈ l, ∃ d ∈ lookupDeps deps t, d ∉ tickets) →
      ∃ e : ConfigErr, build_dag.go tickets deps l = .error e ∧
        e.t ∈ l ∧ e.dep ∈ lookupDeps deps e.t ∧ e.dep ∉ tickets := by
  intro l
  induction l with
  | nil => rintro ⟨t, ht, -⟩; cases ht
  | cons t rest ih =>
    rintro ⟨t', ht', d, hd, hdn⟩
    rw [build_dag.go]
    rcases hchk : checkDeps tickets t (lookupDeps deps t) with - | e
    · have hall := (checkDeps_none_iff tickets t (lookupDeps deps t)).mp hchk
      have ht'' : t' ∈ rest := by
        rcases List.mem_cons.mp ht' with rfl | h
        · exact absurd (hall d hd) hdn
        · exact h
      rcases ih ⟨t', ht'', d, hd, hdn⟩ with ⟨e, herr, he1, he2, he3⟩
      refine ⟨e, ?_, List.mem_cons_of_mem _ he1, he2, he3⟩
      rw [herr]
    · rcases checkDeps_some hchk with ⟨h1, h2, h3⟩
      exact ⟨e, rfl, by rw [h1]; exact List.mem_cons_self _ _, h1 ▸ h2, h3⟩

/-- C9: whenever some ticket of the list names a prerequisite that is
not itself in the ticket list, `build_dag` fails with a configuration
error carrying the offending ticket and the unknown prerequisite (whose
rendered message names both), and no node list is returned. -/
theorem build_dag_unknown_dep (tickets : List Int) (deps : List (Int × List Int))
    (h : ∃ t ∈ tickets, ∃ d ∈ lookupDeps deps t, d ∉ tickets) :
    ∃ e : ConfigErr, build_dag tickets deps = .error e ∧
      e.t ∈ tickets ∧ e.dep ∈ lookupDeps deps e.t ∧ e.dep ∉ tickets ∧
      e.message = s!"Ticket #{e.t} depends on #{e.dep}, which is not in the ticket list" := by
  rcases build_dag_go_err tickets deps tickets h with ⟨e, herr, h1, h2, h3⟩
  exact ⟨e, herr, h1, h2, h3, rfl⟩

/-- C9 witness: `build_dag([1,2], {1:[999]})` fails with the error
naming ticket 1 and prerequisite 999. -/
theorem build_dag_unknown_dep_witness :
    (∃ t ∈ [(1 : Int), 2], ∃ d ∈ lookupDeps [(1, [999])] t, d ∉ [(1 : Int), 2]) ∧
    (∃ e : ConfigErr, build_dag [1, 2] [(1, [999])] = .error e ∧
      e.t ∈ [(1 : Int), 2] ∧ e.dep ∈ lookupDeps [(1, [999])] e.t ∧ e.dep ∉ [(1 : Int), 2] ∧
      e.message = s!"Ticket #{e.t} depends on #{e.dep}, which is not in the ticket list") ∧
    build_dag [1, 2] [(1, [999])] = .error ⟨1, 999⟩ ∧
    (ConfigErr.mk 1 999).message = "Ticket #1 depends on #999, which is not in the ticket list" :=
  ⟨⟨1, by decide, 999, by decide, by decide⟩,
   build_dag_unknown_dep [1, 2] [(1, [999])] ⟨1, by decide, 999, by decide, by decide⟩,
   rfl, rfl⟩

/-- The git commands `merge_branches` issues for one ticket: the
`--no-ff` merge, followed by `merge --abort` exactly when the merge
failed. -/
def mergeCmds (mergeOk : Int → String → Bool) (branches : List (Int × String))
    (t : Int) : List GitCmd :=
  let b := branchOf branches t
  if mergeOk t b then [GitCmd.mergeNoFF s!"Merge {b} (#{t})" b]
  else [GitCmd.mergeNoFF s!"Merge {b} (#{t})" b, GitCmd.abortMerge]

theorem merge_branches_fold (mergeOk : Int → String → Bool) (branches : List (Int × String)) :
    ∀ (l m : List Int) (tr : List GitCmd),
      l.foldl
        (fun (acc : List Int × List GitCmd) (ticket : Int) =>
          let branch := branchOf branches ticket
          if mergeOk ticket branch then
            (acc.1 ++ [ticket], acc.2 ++ [GitCmd.mergeNoFF s!"Merge {branch} (#{ticket})" branch])
          else
            (acc.1, acc.2 ++ [GitCmd.mergeNoFF s!"Merge {branch} (#{ticket})" branch,
              GitCmd.abortMerge]))
        (m, tr) =
      (m ++ l.filter (fun t => mergeOk t (branchOf branches t)),
       tr ++ l.flatMap (mergeCmds mergeOk branches)) := by
  intro l
  induction l with
  | nil => simp
  | cons t rest ih =>
    intro m tr
    rcases hok : mergeOk t (branchOf branches t) with - | -
    · simp only [List.foldl_cons, hok, if_neg Bool.false_ne_true, List.filter_cons,
        List.flatMap_cons, mergeCmds, hok, ih]
      simp [mergeCmds, hok]
    · simp only [List.foldl_cons, hok, if_pos rfl, List.filter_cons, List.flatMap_cons,
        mergeCmds, hok, ih]
      simp [mergeCmds, hok]

theorem merge_branches_fst (mergeOk : Int → String → Bool) (remote base : String)
    (branches : List (Int × String)) :
    (merge_branches mergeOk remote base branches).1 =
      (sortInt (branches.map Prod.fst)).filter (fun t => mergeOk t (branchOf branches t)) := by
  simp only [merge_branches]
  rw [merge_branches_fold]
  simp

/-- C5: `merge_branches` attempts merges one at a time in ascending
ticket order; a failed merge is aborted (the `merge --abort` right after
it) and the loop continues, so every later ticket whose own merge
succeeds is still merged; the returned list is exactly the tickets whose
merge succeeded; and the trunk is pushed iff at least one branch
merged. -/
theorem merge_branches_spec (mergeOk : Int → String → Bool) (remote base : String)
    (branches : List (Int × String)) :
    (merge_branches mergeOk remote base branches).1 =
      (sortInt (branches.map Prod.fst)).filter (fun t => mergeOk t (branchOf branches t)) ∧
    (sortInt (branches.map Prod.fst)).Sorted (· ≤ ·) ∧
    (merge_branches mergeOk remote base branches).2 =
      [GitCmd.checkout base, GitCmd.pull remote base] ++
        (sortInt (branches.map Prod.fst)).flatMap (mergeCmds mergeOk branches) ++
        (if ((merge_branches mergeOk remote base branches).1).isEmpty then []
         else [GitCmd.push remote base]) ∧
    (∀ t ∈ sortInt (branches.map Prod.fst), mergeOk t (branchOf branches t) = true →
        t ∈ (merge_branches mergeOk remote base branches).1) ∧
    (GitCmd.push remote base ∈ (merge_branches mergeOk remote base branches).2 ↔
        (merge_branches mergeOk remote base branches).1 ≠ []) := by
  have hfold := merge_branches_fold mergeOk branches (sortInt (branches.map Prod.fst))
    [] [GitCmd.checkout base, GitCmd.pull remote base]
  have h1 := merge_branches_fst mergeOk remote base branches
  have h2 : (merge_branches mergeOk remote base branches).2 =
      [GitCmd.checkout base, GitCmd.pull remote base] ++
        (sortInt (branches.map Prod.fst)).flatMap (mergeCmds mergeOk branches) ++
        (if ((merge_branches mergeOk remote base branches).1).isEmpty then []
         else [GitCmd.push remote base]) := by
    rw [h1]
    simp only [merge_branches]
    rw [hfold]
    simp
  refine ⟨h1, sortInt_sorted _, h2, ?_, ?_⟩
  · intro t ht hok
    rw [h1]
    exact List.mem_filter.mpr ⟨ht, hok⟩
  · rw [h2]
    constructor
    · intro hmem
      rcases List.mem_append.mp hmem with hmem | hpush
      · rcases List.mem_append.mp hmem with hpre | hcmds
        · simp at hpre
        · rcases List.mem_flatMap.mp hcmds with ⟨t, -, hcmd⟩
          simp only [mergeCmds] at hcmd
          split at hcmd <;> simp at hcmd
      · split at hpush
        · cases hpush
        · next hne => exact fun hnil => hne (by simp [hnil])
    · intro hne
      have : ¬ ((merge_branches mergeOk remote base branches).1).isEmpty = true := by
        simpa [List.isEmpty_iff] using hne
      rw [if_neg this]
      simp

/-- Dict access `m[t]` on an association list (first entry wins; in the
modelled code keys are unique). -/
def lookupResult : List (Int × ProcessingResult) → Int → Option ProcessingResult
  | [], _ => none
  | p :: rest, t => if p.1 = t then some p.2 else lookupResult rest t

theorem lookupResult_append (a b : List (Int × ProcessingResult)) (t : Int) :
    lookupResult (a ++ b) t =
      match lookupResult a t with
      | some v => some v
      | none => lookupResult b t := by
  induction a with
  | nil => simp [lookupResult]
  | cons p rest ih =>
    by_cases h : p.1 = t <;> simp [lookupResult, h, ih]

theorem lookupResult_map_self (l : List Int) (f : Int → ProcessingResult) (t : Int)
    (ht : t ∈ l) : lookupResult (l.map (fun u => (u, f u))) t = some (f t) := by
  induction l with
  | nil => cases ht
  | cons u rest ih =>
    rcases List.mem_cons.mp ht with rfl | h
    · simp [lookupResult]
    · by_cases hu : u = t
      · subst hu; simp [lookupResult]
      · simp [lookupResult, hu, ih h]

theorem lookupResult_map_not_mem (l : List Int) (f : Int → ProcessingResult) (t : Int)
    (ht : t ∉ l) : lookupResult (l.map (fun u => (u, f u))) t = none := by
  induction l with
  | nil => rfl
  | cons u rest ih =>
    have hu : u ≠ t := fun h => ht (h ▸ List.mem_cons_self _ _)
    simp only [List.map_cons, lookupResult, if_neg hu]
    exact ih (fun h => ht (List.mem_cons_of_mem _ h))

theorem process_wave_skip_core (deps_for : Int → List Int)
    (agent : Int → ProcessingResult) (now : Nat) (wave : DAGWave) (failed : List Int)
    (t : Int) (ht : t ∈ wave.tickets)
    (hpred : (deps_for t).any (fun d => decide (d ∈ failed)) = true) :
    lookupResult (process_wave deps_for agent now wave failed).1 t =
      some (skipResult now t) ∧
    t ∉ (process_wave deps_for agent now wave failed).2 := by
  have hskip : t ∈ wave.tickets.filter
      (fun u => (deps_for u).any (fun d => decide (d ∈ failed))) :=
    List.mem_filter.mpr ⟨ht, hpred⟩
  constructor
  · show lookupResult
      ((wave.tickets.filter _).map (fun u => (u, skipResult now u)) ++
        (wave.tickets.filter _).map (fun u => (u, agent u))) t = _
    rw [lookupResult_append, lookupResult_map_self _ _ _ hskip]
  · intro hrun
    have := (List.mem_filter.mp hrun).2
    simp [hpred] at this

theorem process_wave_run_core (deps_for : Int → List Int)
    (agent : Int → ProcessingResult) (now : Nat) (wave : DAGWave) (failed : List Int)
    (t : Int) (ht : t ∈ wave.tickets)
    (hpred : (deps_for t).any (fun d => decide (d ∈ failed)) = false) :
    lookupResult (process_wave deps_for agent now wave failed).1 t = some (agent t) ∧
    t ∈ (process_wave deps_for agent now wave failed).2 := by
  have hnotskip : t ∉ wave.tickets.filter
      (fun u => (deps_for u).any (fun d => decide (d ∈ failed))) := by
    intro h
    have := (List.mem_filter.mp h).2
    rw [hpred] at this
    cases this
  have hrun : t ∈ wave.tickets.filter
      (fun u => !(deps_for u).any (fun d => decide (d ∈ failed))) :=
    List.mem_filter.mpr ⟨ht, by simp [hpred]⟩
  constructor
  · show lookupResult
      ((wave.tickets.filter _).map (fun u => (u, skipResult now u)) ++
        (wave.tickets.filter _).map (fun u => (u, agent u))) t = _
    rw [lookupResult_append, lookupResult_map_not_mem _ _ _ hnotskip]
    exact lookupResult_map_self _ _ _ hrun
  · exact hrun

theorem process_wave_keys (deps_for : Int → List Int)
    (agent : Int → ProcessingResult) (now : Nat) (wave : DAGWave) (failed : List Int) :
    (process_wave deps_for agent now wave failed).1.map Prod.fst =
      wave.tickets.filter (fun u => (deps_for u).any (fun d => decide (d ∈ failed))) ++
      wave.tickets.filter (fun u => !(deps_for u).any (fun d => decide (d ∈ failed))) := by
  show ((_ ++ _ : List (Int × ProcessingResult)).map Prod.fst) = _
  rw [List.map_append, List.map_map, List.map_map]
  have h1 : (Prod.fst ∘ fun t : Int => (t, skipResult now t)) = id := rfl
  have h2 : (Prod.fst ∘ fun t : Int => (t, agent t)) = id := rfl
  rw [h1, h2, List.map_id, List.map_id]

theorem process_wave_keys_nodup (deps_for : Int → List Int)
    (agent : Int → ProcessingResult) (now : Nat) (wave : DAGWave) (failed : List Int)
    (hW : wave.tickets.Nodup) :
    ((process_wave deps_for agent now wave failed).1.map Prod.fst).Nodup := by
  rw [process_wave_keys]
  refine List.Nodup.append (hW.filter _) (hW.filter _) ?_
  intro x hx hx'
  have h1 := (List.mem_filter.mp hx).2
  have h2 := (List.mem_filter.mp hx').2
  rw [h1] at h2
  cases h2

theorem process_wave_keys_sub (deps_for : Int → List Int)
    (agent : Int → ProcessingResult) (now : Nat) (wave : DAGWave) (failed : List Int) :
    ∀ p ∈ (process_wave deps_for agent now wave failed).1, p.1 ∈ wave.tickets := by
  intro p hp
  have : p.1 ∈ (process_wave deps_for agent now wave failed).1.map Prod.fst :=
    List.mem_map.mpr ⟨p, hp, rfl⟩
  rw [process_wave_keys] at this
  rcases List.mem_append.mp this with h | h
  · exact (List.mem_filter.mp h).1
  · exact (List.mem_filter.mp h).1

theorem process_wave_runnable_sub (deps_for : Int → List Int)
    (agent : Int → ProcessingResult) (now : Nat) (wave : DAGWave) (failed : List Int) :
    ∀ x ∈ (process_wave deps_for agent now wave failed).2, x ∈ wave.tickets := by
  intro x hx
  exact (List.mem_filter.mp hx).1

/-- C4 (amended): a ticket of the wave with a declared prerequisite in
the failed set gets the synthetic `skipResult` — status `failed` (the
status enum has no separate "skipped" value) with error message
`"Skipped: upstream dependency failed"` — and the work-agent is not
invoked for it.  The prerequisite check consults `deps_for`, the
original prerequisite map recorded at graph-build time
(`dag_run` wires `deps_for := depsOf nodes`). -/
theorem process_wave_skips_failed_dep (deps_for : Int → List Int)
    (agent : Int → ProcessingResult) (now : Nat) (wave : DAGWave) (failed : List Int)
    (t : Int) (ht : t ∈ wave.tickets) (hdep : ∃ d ∈ deps_for t, d ∈ failed) :
    lookupResult (process_wave deps_for agent now wave failed).1 t =
      some (skipResult now t) ∧
    t ∉ (process_wave deps_for agent now wave failed).2 ∧
    (skipResult now t).status = .failed ∧
    (skipResult now t).error_message = some "Skipped: upstream dependency failed" := by
  have hpred : (deps_for t).any (fun d => decide (d ∈ failed)) = true := by
    rcases hdep with ⟨d, hd, hdf⟩
    exact List.any_eq_true.mpr ⟨d, hd, by simpa using hdf⟩
  obtain ⟨h1, h2⟩ := process_wave_skip_core deps_for agent now wave failed t ht hpred
  exact ⟨h1, h2, rfl, rfl⟩

/-- C4 witness for the amended claim: ticket 11 depends on failed
ticket 10 and is skipped without the agent being invoked. -/
theorem process_wave_skips_failed_dep_witness :
    ((11 : Int) ∈ (DAGWave.mk 2 [11]).tickets ∧
      ∃ d ∈ (fun t : Int => if t = 11 then [(10 : Int)] else []) 11, d ∈ [(10 : Int)]) ∧
    (lookupResult
        (process_wave (fun t : Int => if t = 11 then [(10 : Int)] else [])
          (fun t => { issue_number := t, status := .completed }) 0 ⟨2, [11]⟩ [10]).1 11 =
      some (skipResult 0 11) ∧
    (11 : Int) ∉ (process_wave (fun t : Int => if t = 11 then [(10 : Int)] else [])
          (fun t => { issue_number := t, status := .completed }) 0 ⟨2, [11]⟩ [10]).2 ∧
    (skipResult 0 11).status = .failed ∧
    (skipResult 0 11).error_message = some "Skipped: upstream dependency failed") :=
  ⟨⟨by decide, 10, by decide, by decide⟩,
   process_wave_skips_failed_dep _ _ 0 ⟨2, [11]⟩ [10] 11 (by decide) ⟨10, by decide, by decide⟩⟩

/-- C4 counterexample to the claim as stated: the synthetic result's
status is `failed` (the code's status enum has no "skipped" member) and
its message is `"Skipped: upstream dependency failed"`, not the claimed
lowercase `"skipped: upstream dependency failed"`. -/
theorem process_wave_skip_message_counterexample :
    lookupResult
        (process_wave (fun t : Int => if t = 11 then [(10 : Int)] else [])
          (fun t => { issue_number := t, status := .completed }) 0 ⟨2, [11]⟩ [10]).1 11 =
      some (skipResult 0 11) ∧
    (skipResult 0 11).status = .failed ∧
    ¬ (skipResult 0 11).error_message = some "skipped: upstream dependency failed" := by
  refine ⟨rfl, rfl, ?_⟩
  intro h
  have : "Skipped: upstream dependency failed" = "skipped: upstream dependency failed" :=
    Option.some.inj h
  simp at this

theorem orderedPairs_mem_each {l : List Int} {x y : Int}
    (h : (x, y) ∈ orderedPairs l) : x ∈ l ∧ y ∈ l := by
  induction l with
  | nil => cases h
  | cons u rest ih =>
    rw [orderedPairs] at h
    rcases List.mem_append.mp h with h | h
    · rcases List.mem_map.mp h with ⟨z, hz, hzeq⟩
      cases hzeq
      exact ⟨List.mem_cons_self _ _, List.mem_cons_of_mem _ hz⟩
    · rcases ih h with ⟨h1, h2⟩
      exact ⟨List.mem_cons_of_mem _ h1, List.mem_cons_of_mem _ h2⟩

theorem orderedPairs_lt {l : List Int} :
    l.Sorted (· ≤ ·) → l.Nodup → ∀ x y : Int, (x, y) ∈ orderedPairs l → x < y := by
  induction l with
  | nil => intro _ _ x y h; cases h
  | cons u rest ih =>
    intro hs hnd x y h
    rw [orderedPairs] at h
    rcases List.mem_append.mp h with h | h
    · rcases List.mem_map.mp h with ⟨z, hz, hzeq⟩
      have h1 : u = x := congrArg Prod.fst hzeq
      have h2 : z = y := congrArg Prod.snd hzeq
      subst h1; subst h2
      exact lt_of_le_of_ne ((List.sorted_cons.mp hs).1 _ hz)
        (fun heq => (List.nodup_cons.mp hnd).1 (heq ▸ hz))
    · exact ih (List.sorted_cons.mp hs).2 (List.nodup_cons.mp hnd).2 x y h

theorem orderedPairs_of_lt {l : List Int} :
    l.Sorted (· ≤ ·) → l.Nodup → ∀ x y : Int, x ∈ l → y ∈ l → x < y → (x, y) ∈ orderedPairs l := by
  induction l with
  | nil => intro _ _ x y hx; cases hx
  | cons u rest ih =>
    intro hs hnd x y hx hy hlt
    rw [orderedPairs]
    rcases List.mem_cons.mp hx with rfl | hx'
    · have hy' : y ∈ rest := by
        rcases List.mem_cons.mp hy with rfl | h
        · exact absurd hlt (lt_irrefl _)
        · exact h
      exact List.mem_append.mpr (.inl (List.mem_map.mpr ⟨y, hy', rfl⟩))
    · have hy' : y ∈ rest := by
        rcases List.mem_cons.mp hy with rfl | h
        · have : y ≤ x := ((List.sorted_cons.mp hs).1) x hx'
          exact absurd (lt_of_lt_of_le hlt this) (lt_irrefl _)
        · exact h
      exact List.mem_append.mpr
        (.inr (ih (List.sorted_cons.mp hs).2 (List.nodup_cons.mp hnd).2 x y hx' hy' hlt))

theorem orderedPairs_nodup {l : List Int} (hnd : l.Nodup) : (orderedPairs l).Nodup := by
  induction l with
  | nil => exact List.nodup_nil
  | cons u rest ih =>
    rw [orderedPairs]
    refine List.Nodup.append ?_ (ih (List.nodup_cons.mp hnd).2) ?_
    · exact ((List.nodup_cons.mp hnd).2).map (fun z w h => congrArg Prod.snd h)
    · intro p hp hp'
      rcases List.mem_map.mp hp with ⟨z, -, rfl⟩
      have := (orderedPairs_mem_each hp').1
      exact (List.nodup_cons.mp hnd).1 this

/-- Dict lookup on an association list with unique keys finds the unique
entry. -/
theorem find?_assoc_eq {β : Type} {m : List (Int × β)} {a : Int} {v : β}
    (hnd : (m.map Prod.fst).Nodup) (h : (a, v) ∈ m) :
    m.find? (fun p => p.1 == a) = some (a, v) := by
  induction m with
  | nil => cases h
  | cons p rest ih =>
    rcases List.mem_cons.mp h with rfl | h'
    · simp [List.find?]
    · have hne : p.1 ≠ a := by
        intro heq
        have : a ∈ rest.map Prod.fst := List.mem_map.mpr ⟨(a, v), h', rfl⟩
        exact (List.nodup_cons.mp (by simpa using hnd)).1 (heq ▸ this)
      have hfalse : (p.1 == a) = false := by simpa using hne
      simp only [List.find?, hfalse]
      exact ih (by simpa using (List.nodup_cons.mp (by simpa using hnd)).2) h'

theorem filterMap_filter_nil {α β : Type} (h : α → Option β) (pred : β → Bool) (key : α)
    (hkey : ∀ p mc, h p = some mc → pred mc = true → p = key) :
    ∀ ps : List α, key ∉ ps → (ps.filterMap h).filter pred = [] := by
  intro ps
  induction ps with
  | nil => intro; rfl
  | cons p rest ih =>
    intro hk
    have hk' : key ∉ rest := fun hh => hk (List.mem_cons_of_mem _ hh)
    rcases hp : h p with - | mc
    · rw [List.filterMap_cons_none hp]; exact ih hk'
    · rw [List.filterMap_cons_some hp]
      rcases hpred : pred mc with - | -
      · rw [List.filter_cons_of_neg (by simp [hpred])]; exact ih hk'
      · exact absurd (hkey p mc hp hpred) (fun heq => hk (heq ▸ List.mem_cons_self _ _))

theorem filterMap_filter_single {α β : Type} (h : α → Option β) (pred : β → Bool) (key : α)
    (mc₀ : β) (hkey : ∀ p mc, h p = some mc → pred mc = true → p = key)
    (hsome : h key = some mc₀) (hpred : pred mc₀ = true) :
    ∀ ps : List α, ps.Nodup → key ∈ ps → (ps.filterMap h).filter pred = [mc₀] := by
  intro ps
  induction ps with
  | nil => intro _ hk; cases hk
  | cons p rest ih =>
    intro hnd hk
    rcases List.mem_cons.mp hk with rfl | hk'
    · rw [List.filterMap_cons_some hsome, List.filter_cons_of_pos (by simp [hpred])]
      rw [filterMap_filter_nil h pred key hkey rest (List.nodup_cons.mp hnd).1]
    · have hne : p ≠ key := fun heq => (List.nodup_cons.mp hnd).1 (heq ▸ hk')
      rcases hp : h p with - | mc
      · rw [List.filterMap_cons_none hp]; exact ih (List.nodup_cons.mp hnd).2 hk'
      · have hpredmc : pred mc = false := by
          rcases hpm : pred mc with - | -
          · rfl
          · exact absurd (hkey p mc hp hpm) hne
        rw [List.filterMap_cons_some hp, List.filter_cons_of_neg (by simp [hpredmc])]
        exact ih (List.nodup_cons.mp hnd).2 hk'

theorem filterMap_fst_sublist {β γ : Type} (g : Int × β → Option (Int × γ))
    (hg : ∀ p q, g p = some q → q.1 = p.1) (l : List (Int × β)) :
    ((l.filterMap g).map Prod.fst).Sublist (l.map Prod.fst) := by
  induction l with
  | nil => simp
  | cons p rest ih =>
    rcases hp : g p with - | q
    · rw [List.filterMap_cons_none hp]
      exact ih.cons _
    · rw [List.filterMap_cons_some hp]
      simp only [List.map_cons, hg p q hp]
      exact ih.cons₂ _

/-- C7: for a pair of branches of the wave whose diffs both succeed,
with `a < b`: if their modified-file sets are disjoint no
`MergeConflict` for that pair is reported (in either orientation), and
if they intersect exactly one report `⟨a, b, sorted intersection⟩` is
produced; reports are always oriented with `ticket_a < ticket_b`. -/
theorem detect_file_overlaps_spec
    (diff : Int → String → Option (List String)) (branches : List (Int × String))
    (a b : Int) (ba bb : String) (la lb : List String)
    (hnd : (branches.map Prod.fst).Nodup) (hab : a < b)
    (hma : (a, ba) ∈ branches) (hmb : (b, bb) ∈ branches)
    (hda : diff a ba = some la) (hdb : diff b bb = some lb) :
    ((∀ f ∈ cleanFiles la, f ∉ cleanFiles lb) →
      ∀ mc ∈ detect_file_overlaps diff branches,
        ¬ ((mc.ticket_a = a ∧ mc.ticket_b = b) ∨ (mc.ticket_a = b ∧ mc.ticket_b = a))) ∧
    ((∃ f ∈ cleanFiles la, f ∈ cleanFiles lb) →
      (detect_file_overlaps diff branches).filter
          (fun mc => mc.ticket_a == a && mc.ticket_b == b) =
        [⟨a, b, sortStr ((cleanFiles la).filter (fun f => f ∈ cleanFiles lb)).dedup⟩]) := by
  have hgfst : ∀ (p : Int × String) (q : Int × List String),
      (match diff p.1 p.2 with
        | some lines => some (p.1, cleanFiles lines)
        | none => none) = some q → q.1 = p.1 := by
    intro p q hq
    rcases h : diff p.1 p.2 with - | l <;> rw [h] at hq
    · cases hq
    · cases hq; rfl
  have hFBa : (a, cleanFiles la) ∈ branches.filterMap (fun p =>
      match diff p.1 p.2 with
      | some lines => some (p.1, cleanFiles lines)
      | none => none) :=
    List.mem_filterMap.mpr ⟨(a, ba), hma, by simp [hda]⟩
  have hFBb : (b, cleanFiles lb) ∈ branches.filterMap (fun p =>
      match diff p.1 p.2 with
      | some lines => some (p.1, cleanFiles lines)
      | none => none) :=
    List.mem_filterMap.mpr ⟨(b, bb), hmb, by simp [hdb]⟩
  have hkeynd : (((branches.filterMap (fun p =>
      match diff p.1 p.2 with
      | some lines => some (p.1, cleanFiles lines)
      | none => none))).map Prod.fst).Nodup :=
    (filterMap_fst_sublist _ hgfst branches).nodup hnd
  have hfind_a := find?_assoc_eq hkeynd hFBa
  have hfind_b := find?_assoc_eq hkeynd hFBb
  have hkey_a : a ∈ sortInt ((branches.filterMap (fun p =>
      match diff p.1 p.2 with
      | some lines => some (p.1, cleanFiles lines)
      | none => none)).map Prod.fst) :=
    mem_sortInt.mpr (List.mem_map.mpr ⟨_, hFBa, rfl⟩)
  have hkey_b : b ∈ sortInt ((branches.filterMap (fun p =>
      match diff p.1 p.2 with
      | some lines => some (p.1, cleanFiles lines)
      | none => none)).map Prod.fst) :=
    mem_sortInt.mpr (List.mem_map.mpr ⟨_, hFBb, rfl⟩)
  have hsortnd : (sortInt ((branches.filterMap (fun p =>
      match diff p.1 p.2 with
      | some lines => some (p.1, cleanFiles lines)
      | none => none)).map Prod.fst)).Nodup :=
    (sortInt_perm _).nodup_iff.mpr hkeynd
  have hpair : (a, b) ∈ orderedPairs (sortInt ((branches.filterMap (fun p =>
      match diff p.1 p.2 with
      | some lines => some (p.1, cleanFiles lines)
      | none => none)).map Prod.fst)) :=
    orderedPairs_of_lt (sortInt_sorted _) hsortnd a b hkey_a hkey_b hab
  constructor
  · -- disjoint file sets: no report for the pair
    intro hdisj mc hmc hpairhyp
    simp only [detect_file_overlaps] at hmc
    rcases List.mem_filterMap.mp hmc with ⟨⟨x, y⟩, hxy, hsome⟩
    dsimp only at hsome
    split at hsome
    · cases hsome
    · next hne =>
      have hmceq := (Option.some.inj hsome).symm
      rcases hpairhyp with ⟨h1, h2⟩ | ⟨h1, h2⟩
      · have hx : x = a := by rw [hmceq] at h1; exact h1
        have hy : y = b := by rw [hmceq] at h2; exact h2
        rw [hx, hy] at hne
        rw [hfind_a, hfind_b] at hne
        simp only [Option.map_some', Option.getD_some] at hne
        have hne' : (cleanFiles la).filter (fun f => decide (f ∈ cleanFiles lb)) ≠ [] := by
          intro hnil
          rw [hnil] at hne
          exact hne rfl
        rcases List.exists_mem_of_ne_nil _ hne' with ⟨f, hf⟩
        have := List.mem_filter.mp hf
        exact hdisj f this.1 (by simpa using this.2)
      · have hx : x = b := by rw [hmceq] at h1; exact h1
        have hy : y = a := by rw [hmceq] at h2; exact h2
        rw [hx, hy] at hxy
        have := orderedPairs_lt (sortInt_sorted _) hsortnd b a hxy
        exact absurd hab (by omega)
  · -- intersecting file sets: exactly one report with the intersection
    intro hex
    simp only [detect_file_overlaps]
    refine filterMap_filter_single _ _ (a, b)
      (MergeConflict.mk a b (sortStr ((cleanFiles la).filter (fun f => f ∈ cleanFiles lb)).dedup))
      ?_ ?_ ?_ _ (orderedPairs_nodup hsortnd) hpair
    · rintro ⟨x, y⟩ mc hsome hpred
      dsimp only at hsome
      split at hsome
      · cases hsome
      · have hmceq := (Option.some.inj hsome).symm
        have h1 : mc.ticket_a = x := by rw [hmceq]
        have h2 : mc.ticket_b = y := by rw [hmceq]
        simp only [Bool.and_eq_true, beq_iff_eq] at hpred
        rw [h1] at hpred; rw [h2] at hpred
        simp [hpred.1, hpred.2]
    · dsimp only
      rw [hfind_a, hfind_b]
      simp only [Option.map_some', Option.getD_some]
      rcases hex with ⟨f, hfa, hfb⟩
      have hfmem : f ∈ (cleanFiles la).filter (fun f => f ∈ cleanFiles lb) :=
        List.mem_filter.mpr ⟨hfa, by simpa using hfb⟩
      rw [if_neg]
      intro hemp
      rw [List.isEmpty_iff] at hemp
      rw [hemp] at hfmem
      cases hfmem
    · simp

/-- C7 witness: branches for tickets 1 and 2 modify `{x,y}` and `{y,z}`;
exactly one conflict report `⟨1, 2, [y]⟩` is produced. -/
theorem detect_file_overlaps_spec_witness :
    (detect_file_overlaps (fun t _ => if t = 1 then some ["x", "y"] else some ["y", "z"])
        [(1, "bra"), (2, "brb")]).filter
        (fun mc => mc.ticket_a == 1 && mc.ticket_b == 2) =
      [⟨1, 2, sortStr ((cleanFiles ["x", "y"]).filter
          (fun f => f ∈ cleanFiles ["y", "z"])).dedup⟩] :=
  (detect_file_overlaps_spec (fun t _ => if t = 1 then some ["x", "y"] else some ["y", "z"])
      [(1, "bra"), (2, "brb")] 1 2 "bra" "brb" ["x", "y"] ["y", "z"]
      (by decide) (by decide) (by decide) (by decide) rfl rfl).2
    ⟨"y", by decide, by decide⟩

/-! ### Counting lemmas for the Kahn loop invariant -/

theorem countP_or_split (p q : Int → Bool) (hdisj : ∀ x, ¬(p x = true ∧ q x = true)) :
    ∀ ds : List Int, ds.countP (fun d => p d || q d) = ds.countP p + ds.countP q := by
  intro ds
  induction ds with
  | nil => rfl
  | cons d ds ih =>
    rw [List.countP_cons, List.countP_cons, List.countP_cons, ih]
    rcases hp : p d with - | - <;> rcases hq : q d with - | -
    · simp [hp, hq]
    · simp [hp, hq]; omega
    · simp [hp, hq]; omega
    · exact absurd ⟨hp, hq⟩ (hdisj d)

theorem filter_mem_cons_length (a : Int) (l : List Int) (ha : a ∉ l) :
    ∀ ds : List Int,
      (ds.filter (fun d => d ∈ a :: l)).length =
        (ds.filter (fun d => d == a)).length + (ds.filter (fun d => d ∈ l)).length := by
  intro ds
  rw [← List.countP_eq_length_filter, ← List.countP_eq_length_filter,
    ← List.countP_eq_length_filter]
  rw [List.countP_congr (q := fun d => (d == a) || decide (d ∈ l))
    (by intro d _; simp [List.mem_cons])]
  exact countP_or_split _ _
    (by
      intro x ⟨h1, h2⟩
      rw [beq_iff_eq] at h1
      exact ha (h1 ▸ (by simpa using h2))) ds

theorem filter_length_split (remaining : List Int) (f : Int → Bool) :
    ∀ ds : List Int,
      (ds.filter (fun d => d ∈ remaining)).length =
        (ds.filter (fun d => d ∈ remaining.filter f)).length +
          (ds.filter (fun d => d ∈ remaining.filter (fun x => !f x))).length := by
  intro ds
  rw [← List.countP_eq_length_filter, ← List.countP_eq_length_filter,
    ← List.countP_eq_length_filter]
  rw [List.countP_congr
    (q := fun d => decide (d ∈ remaining.filter f) || decide (d ∈ remaining.filter (fun x => !f x)))
    (by
      intro d _
      simp only [decide_eq_true_eq, Bool.or_eq_true, List.mem_filter]
      constructor
      · intro hd
        rcases hf : f d with - | -
        · exact Or.inr ⟨hd, by simp⟩
        · exact Or.inl ⟨hd, rfl⟩
      · rintro (⟨hd, -⟩ | ⟨hd, -⟩) <;> exact hd)]
  exact countP_or_split _ _
    (by
      intro x ⟨h1, h2⟩
      simp only [decide_eq_true_eq, List.mem_filter] at h1 h2
      rw [h1.2] at h2
      exact absurd h2.2 (by simp)) ds

theorem sum_dependents_count (deps dependents : Int → List Int)
    (hdep : ∀ p t, (dependents p).count t = ((deps t).filter (fun d => d == p)).length) :
    ∀ (ready : List Int), ready.Nodup → ∀ c : Int,
      (ready.map (fun p => (dependents p).count c)).sum =
        ((deps c).filter (fun d => d ∈ ready)).length := by
  intro ready
  induction ready with
  | nil => intro _ c; simp
  | cons p rest ih =>
    intro hnd c
    have hp : p ∉ rest := (List.nodup_cons.mp hnd).1
    rw [List.map_cons, List.sum_cons, hdep p c, ih (List.nodup_cons.mp hnd).2 c,
      filter_mem_cons_length p rest hp (deps c)]

theorem length_filter_lt_of_mem_not {l : List Int} {f : Int → Bool} {m : Int}
    (hm : m ∈ l) (hf : f m = false) : (l.filter f).length < l.length := by
  induction l with
  | nil => cases hm
  | cons a l ih =>
    rcases List.mem_cons.mp hm with rfl | hm'
    · rw [List.filter_cons_of_neg (by simp [hf])]
      exact Nat.lt_succ_of_le (List.length_filter_le _ _)
    · rcases ha : f a with - | -
      · rw [List.filter_cons_of_neg (by simp [ha])]
        exact Nat.lt_succ_of_lt (ih hm')
      · rw [List.filter_cons_of_pos (by simp [ha])]
        simpa using ih hm'

/-- On a nonempty finite vertex list, an acyclic prerequisite relation
has a minimal element: a ticket none of whose prerequisites is in the
list.  (Kahn's algorithm's `ready` set is nonempty.) -/
theorem exists_kahn_ready (deps : Int → List Int)
    (hacyc : ∀ t, ¬ Relation.TransGen (fun d t' => d ∈ deps t') t t)
    (R : List Int) (hne : R ≠ []) :
    ∃ m ∈ R, ∀ d ∈ deps m, d ∉ R := by
  have hfin : Finite {x : Int // x ∈ R} := R.finite_toSet.to_subtype
  let r : {x : Int // x ∈ R} → {x : Int // x ∈ R} → Prop :=
    fun a b => Relation.TransGen (fun d t' => d ∈ deps t') a.1 b.1
  have htr : IsTrans {x : Int // x ∈ R} r := ⟨fun _ _ _ hab hbc => hab.trans hbc⟩
  have hir : IsIrrefl {x : Int // x ∈ R} r := ⟨fun a h => hacyc a.1 h⟩
  have hwf := Finite.wellFounded_of_trans_of_irrefl r
  rcases List.exists_mem_of_ne_nil R hne with ⟨x, hx⟩
  obtain ⟨m, -, hmin⟩ := hwf.has_min Set.univ ⟨⟨x, hx⟩, Set.mem_univ _⟩
  refine ⟨m.1, m.2, ?_⟩
  intro d hd hdR
  exact hmin ⟨d, hdR⟩ (Set.mem_univ _) (Relation.TransGen.single hd)

theorem inDeg_step_eq (deps dependents : Int → List Int)
    (hdep : ∀ p t, (dependents p).count t = ((deps t).filter (fun d => d == p)).length)
    (remaining : List Int) (hnd : remaining.Nodup) (inDeg : Int → Int)
    (t : Int) (htm : t ∈ remaining)
    (hin : inDeg t = (((deps t).filter (fun d => d ∈ remaining)).length : Int)) :
    inDeg t -
        (((remaining.filter (fun x => inDeg x == 0)).map
          (fun p => (dependents p).count t)).sum : Int) =
      (((deps t).filter
        (fun d => d ∈ remaining.filter (fun x => !(inDeg x == 0)))).length : Int) := by
  rw [sum_dependents_count deps dependents hdep _ (hnd.filter _) t]
  have hsplit := filter_length_split remaining (fun x => inDeg x == 0) (deps t)
  rw [hin]
  push_cast
  omega

theorem inDeg_step_ge (deps dependents : Int → List Int)
    (hdep : ∀ p t, (dependents p).count t = ((deps t).filter (fun d => d == p)).length)
    (remaining : List Int) (hnd : remaining.Nodup) (inDeg : Int → Int)
    (t : Int) (htm : t ∈ remaining)
    (hin : (((deps t).filter (fun d => d ∈ remaining)).length : Int) ≤ inDeg t) :
    (((deps t).filter
        (fun d => d ∈ remaining.filter (fun x => !(inDeg x == 0)))).length : Int) ≤
      inDeg t -
        (((remaining.filter (fun x => inDeg x == 0)).map
          (fun p => (dependents p).count t)).sum : Int) := by
  rw [sum_dependents_count deps dependents hdep _ (hnd.filter _) t]
  have hsplit := filter_length_split remaining (fun x => inDeg x == 0) (deps t)
  push_cast
  omega

/-- Every prerequisite of a ticket of the head wave lies outside all the
listed waves (it was consumed earlier); recursively for the tail. -/
def DepsEarlier (deps : Int → List Int) : List DAGWave → Prop
  | [] => True
  | w :: rest =>
    (∀ b ∈ w.tickets, ∀ d ∈ deps b, ∀ w' ∈ w :: rest, d ∉ w'.tickets) ∧
      DepsEarlier deps rest

/-- Main correctness of the Kahn loop on acyclic inputs: it returns
waves that partition `remaining`, with strictly increasing wave numbers
at least `waveNum`, every in-`remaining` prerequisite placed in a
strictly earlier wave, and `DepsEarlier` holding. -/
theorem kahnLoop_ok (deps dependents : Int → List Int)
    (hdep : ∀ p t, (dependents p).count t = ((deps t).filter (fun d => d == p)).length)
    (hacyc : ∀ t, ¬ Relation.TransGen (fun d t' => d ∈ deps t') t t) :
    ∀ (fuel : Nat) (remaining : List Int) (inDeg : Int → Int) (waveNum : Nat)
      (ns : List DAGNode),
      remaining.length < fuel → remaining.Nodup →
      (∀ t ∈ remaining, inDeg t = (((deps t).filter (fun d => d ∈ remaining)).length : Int)) →
      ∃ ns' ws, kahnLoop dependents fuel remaining inDeg waveNum ns = (ns', .ok ws) ∧
        (ws.flatMap DAGWave.tickets).Perm remaining ∧
        (∀ w ∈ ws, waveNum ≤ w.wave_number) ∧
        ((ws.map DAGWave.wave_number).Pairwise (· < ·)) ∧
        (∀ w ∈ ws, ∀ t ∈ w.tickets, ∀ d ∈ deps t, d ∈ remaining →
          ∃ w' ∈ ws, d ∈ w'.tickets ∧ w'.wave_number < w.wave_number) ∧
        DepsEarlier deps ws := by
  intro fuel
  induction fuel with
  | zero => intro remaining _ _ _ hlt _ _; omega
  | succ fuel ih =>
    intro remaining inDeg waveNum ns hlt hnd hin
    by_cases hre : remaining = []
    · subst hre
      refine ⟨ns, [], ?_, by simp, by simp, by simp, by simp, trivial⟩
      rw [kahnLoop]
      simp
    · -- the ready set is nonempty
      obtain ⟨m, hm, hmin⟩ := exists_kahn_ready deps hacyc remaining hre
      have hmz : inDeg m = 0 := by
        rw [hin m hm]
        have : (deps m).filter (fun d => d ∈ remaining) = [] :=
          List.filter_eq_nil_iff.mpr (fun d hd => by simpa using hmin d hd)
        rw [this]
        simp
      have hmready : m ∈ remaining.filter (fun t => inDeg t == 0) :=
        List.mem_filter.mpr ⟨hm, by simp [hmz]⟩
      have hready_ne : ¬(remaining.filter (fun t => inDeg t == 0)).isEmpty = true := by
        rw [List.isEmpty_iff]
        exact fun hnil => by rw [hnil] at hmready; cases hmready
      -- apply the induction hypothesis to the next state
      have hlt' : (remaining.filter (fun t => !(inDeg t == 0))).length < fuel := by
        have := length_filter_lt_of_mem_not hm (f := fun t => !(inDeg t == 0)) (by simp [hmz])
        omega
      have hnd' : (remaining.filter (fun t => !(inDeg t == 0))).Nodup := hnd.filter _
      have hin' : ∀ t ∈ remaining.filter (fun t => !(inDeg t == 0)),
          (fun c => inDeg c -
            (((remaining.filter (fun x => inDeg x == 0)).map
              (fun p => (dependents p).count c)).sum : Int)) t =
          (((deps t).filter
            (fun d => d ∈ remaining.filter (fun x => !(inDeg x == 0)))).length : Int) := by
        intro t ht
        exact inDeg_step_eq deps dependents hdep remaining hnd inDeg t
          (List.mem_filter.mp ht).1 (hin t (List.mem_filter.mp ht).1)
      obtain ⟨ns'', ws', heq, hperm', hge', hpair', hP3', hDE'⟩ :=
        ih (remaining.filter (fun t => !(inDeg t == 0)))
          (fun c => inDeg c -
            (((remaining.filter (fun x => inDeg x == 0)).map
              (fun p => (dependents p).count c)).sum : Int))
          (waveNum + 1)
          ((remaining.filter (fun t => inDeg t == 0)).foldl
            (fun acc t => setWaveLast t (waveNum : Int) acc) ns)
          hlt' hnd' hin'
      refine ⟨ns'', ⟨waveNum, sortInt (remaining.filter (fun t => inDeg t == 0))⟩ :: ws',
        ?_, ?_, ?_, ?_, ?_, ?_⟩
      · rw [kahnLoop]
        dsimp only
        rw [if_neg (by rw [List.isEmpty_iff]; exact hre), if_neg hready_ne, heq]
      · -- partition
        rw [List.flatMap_cons]
        exact ((sortInt_perm _).append hperm').trans (List.filter_append_perm _ _)
      · intro w hw
        rcases List.mem_cons.mp hw with rfl | hw'
        · exact Nat.le_refl _
        · exact Nat.le_of_succ_le (hge' w hw')
      · rw [List.map_cons]
        exact List.pairwise_cons.mpr
          ⟨fun n hn => by
            rcases List.mem_map.mp hn with ⟨w, hw, rfl⟩
            exact Nat.lt_of_succ_le (hge' w hw), hpair'⟩
      · -- prerequisites in strictly earlier waves
        intro w hw t ht d hd hdr
        rcases List.mem_cons.mp hw with rfl | hw'
        · -- head wave: its tickets have no prerequisite left in `remaining`
          exfalso
          have htr : t ∈ remaining.filter (fun t => inDeg t == 0) := mem_sortInt.mp ht
          have hz : inDeg t = 0 := by
            have := (List.mem_filter.mp htr).2
            simpa using this
          have := hin t (List.mem_filter.mp htr).1
          rw [hz] at this
          have hnil : (deps t).filter (fun d => d ∈ remaining) = [] := by
            have hlen : ((deps t).filter (fun d => d ∈ remaining)).length = 0 := by
              exact_mod_cast this.symm
            exact List.length_eq_zero.mp hlen
          have : d ∈ (deps t).filter (fun d => d ∈ remaining) :=
            List.mem_filter.mpr ⟨hd, by simpa using hdr⟩
          rw [hnil] at this
          cases this
        · rcases hdeg : inDeg d == 0 with - | -
          · -- prerequisite still unresolved: recurse
            have hdr' : d ∈ remaining.filter (fun t => !(inDeg t == 0)) :=
              List.mem_filter.mpr ⟨hdr, by simp [hdeg]⟩
            obtain ⟨w', hw'm, hdw', hwlt⟩ := hP3' w hw' t ht d hd hdr'
            exact ⟨w', List.mem_cons_of_mem _ hw'm, hdw', hwlt⟩
          · -- prerequisite becomes ready now: it lands in the head wave
            refine ⟨⟨waveNum, sortInt (remaining.filter (fun t => inDeg t == 0))⟩,
              List.mem_cons_self _ _, ?_, ?_⟩
            · exact mem_sortInt.mpr (List.mem_filter.mpr ⟨hdr, by simp [hdeg]⟩)
            · exact Nat.lt_of_succ_le (hge' w hw')
      · -- DepsEarlier
        refine ⟨?_, hDE'⟩
        intro b hb d hd w' hw' hdw'
        have hbr : b ∈ remaining.filter (fun t => inDeg t == 0) := mem_sortInt.mp hb
        have hz : inDeg b = 0 := by
          have := (List.mem_filter.mp hbr).2
          simpa using this
        have hinb := hin b (List.mem_filter.mp hbr).1
        rw [hz] at hinb
        have hnil : (deps b).filter (fun d => d ∈ remaining) = [] := by
          have hlen : ((deps b).filter (fun d => d ∈ remaining)).length = 0 := by
            exact_mod_cast hinb.symm
          exact List.length_eq_zero.mp hlen
        -- d is in some wave's tickets, hence in remaining
        have hdrem : d ∈ remaining := by
          have hflat : d ∈ (⟨waveNum, sortInt (remaining.filter (fun t => inDeg t == 0))⟩
              :: ws' : List DAGWave).flatMap DAGWave.tickets := by
            rw [List.flatMap_cons]
            rcases List.mem_cons.mp hw' with rfl | hw''
            · exact List.mem_append.mpr (.inl hdw')
            · exact List.mem_append.mpr (.inr (List.mem_flatMap.mpr ⟨w', hw'', hdw'⟩))
          have hperm : ((⟨waveNum, sortInt (remaining.filter (fun t => inDeg t == 0))⟩
              :: ws' : List DAGWave).flatMap DAGWave.tickets).Perm remaining := by
            rw [List.flatMap_cons]
            exact ((sortInt_perm _).append hperm').trans (List.filter_append_perm _ _)
          exact hperm.mem_iff.mp hflat
        have : d ∈ (deps b).filter (fun d => d ∈ remaining) :=
          List.mem_filter.mpr ⟨hd, by simpa using hdrem⟩
        rw [hnil] at this
        cases this

/-! ### Bridging `topological_waves` to the abstract Kahn loop -/

theorem find?_ticket_eq {l : List DAGNode} (hnd : (l.map DAGNode.ticket_number).Nodup)
    {n : DAGNode} (hn : n ∈ l) :
    l.find? (fun m => m.ticket_number == n.ticket_number) = some n := by
  induction l with
  | nil => cases hn
  | cons m rest ih =>
    rcases List.mem_cons.mp hn with rfl | hn'
    · simp [List.find?]
    · have hnd' : (m.ticket_number :: rest.map DAGNode.ticket_number).Nodup := by
        simpa using hnd
      have hne : m.ticket_number ≠ n.ticket_number := by
        intro heq
        exact (List.nodup_cons.mp hnd').1
          (by rw [heq]; exact List.mem_map.mpr ⟨n, hn', rfl⟩)
      have hfalse : (m.ticket_number == n.ticket_number) = false := by simpa using hne
      simp only [List.find?, hfalse]
      exact ih (List.nodup_cons.mp hnd').2 hn'

theorem nodeFor_self {nodes : List DAGNode} (hnd : (nodes.map DAGNode.ticket_number).Nodup)
    {n : DAGNode} (hn : n ∈ nodes) : nodeFor nodes n.ticket_number = some n := by
  unfold nodeFor
  have hrev : ((nodes.reverse).map DAGNode.ticket_number).Nodup := by
    rw [List.map_reverse]
    exact List.nodup_reverse.mpr hnd
  exact find?_ticket_eq hrev (List.mem_reverse.mpr hn)

theorem nodeFor_eq_some {nodes : List DAGNode} {t : Int} {n : DAGNode}
    (h : nodeFor nodes t = some n) : n ∈ nodes ∧ n.ticket_number = t := by
  unfold nodeFor at h
  have h1 := List.find?_some h
  have h2 := List.mem_of_find?_eq_some h
  exact ⟨List.mem_reverse.mp h2, by simpa using h1⟩

theorem depsOf_eq {nodes : List DAGNode} (hnd : (nodes.map DAGNode.ticket_number).Nodup)
    {n : DAGNode} (hn : n ∈ nodes) : depsOf nodes n.ticket_number = n.depends_on := by
  unfold depsOf
  rw [nodeFor_self hnd hn]
  rfl

theorem mem_depsOf_edge {nodes : List DAGNode} {d t : Int}
    (h : d ∈ depsOf nodes t) : depEdge nodes d t := by
  unfold depsOf at h
  rcases hf : nodeFor nodes t with - | n
  · rw [hf] at h; cases h
  · rw [hf] at h
    rcases nodeFor_eq_some hf with ⟨hmem, hticket⟩
    exact ⟨n, hmem, hticket, h⟩

theorem acyclic_depsOf {nodes : List DAGNode} (h : Acyclic nodes) :
    ∀ t, ¬ Relation.TransGen (fun d t' => d ∈ depsOf nodes t') t t := by
  intro t ht
  exact h t (Relation.TransGen.mono (fun a b hab => mem_depsOf_edge hab) ht)

theorem mem_dependentsOf {nodes : List DAGNode} {p x : Int}
    (h : x ∈ dependentsOf nodes p) : x ∈ nodes.map DAGNode.ticket_number := by
  induction nodes with
  | nil => cases h
  | cons n rest ih =>
    rcases List.mem_append.mp h with h' | h'
    · rcases List.mem_map.mp h' with ⟨-, -, rfl⟩
      exact List.mem_map.mpr ⟨n, List.mem_cons_self _ _, rfl⟩
    · exact List.mem_cons_of_mem _ (ih h')

theorem nodeFor_cons_ne {n : DAGNode} {rest : List DAGNode} {t : Int}
    (h : n.ticket_number ≠ t) : nodeFor (n :: rest) t = nodeFor rest t := by
  unfold nodeFor
  rw [List.reverse_cons, List.find?_append]
  have hfalse : (n.ticket_number == t) = false := by simpa using h
  rcases hf : rest.reverse.find? (fun m => m.ticket_number == t) with - | x
  · rw [hf]
    simp [List.find?, hfalse]
  · rw [hf]
    simp

theorem dependentsOf_count (nodes : List DAGNode)
    (hnd : (nodes.map DAGNode.ticket_number).Nodup) :
    ∀ p t, (dependentsOf nodes p).count t =
      ((depsOf nodes t).filter (fun d => d == p)).length := by
  induction nodes with
  | nil => intro p t; simp [dependentsOf, depsOf, nodeFor]
  | cons n rest ih =>
    intro p t
    have hstep : dependentsOf (n :: rest) p =
        ((n.depends_on.filter (fun d => d == p)).map (fun _ => n.ticket_number)) ++
          dependentsOf rest p := rfl
    rw [hstep, List.count_append]
    have hndc : (n.ticket_number :: rest.map DAGNode.ticket_number).Nodup := by
      simpa using hnd
    have hndr : (rest.map DAGNode.ticket_number).Nodup := (List.nodup_cons.mp hndc).2
    by_cases htn : t = n.ticket_number
    · subst htn
      have hdeps : depsOf (n :: rest) n.ticket_number = n.depends_on :=
        depsOf_eq hnd (List.mem_cons_self _ _)
      have hc1 : ((n.depends_on.filter (fun d => d == p)).map
          (fun _ => n.ticket_number)).count n.ticket_number =
          (n.depends_on.filter (fun d => d == p)).length := by
        rw [List.map_const', List.count_replicate_self]
      have hnd2 : (n.ticket_number :: rest.map DAGNode.ticket_number).Nodup := by
        simpa using hnd
      have hnotin : n.ticket_number ∉ rest.map DAGNode.ticket_number :=
        (List.nodup_cons.mp hnd2).1
      have hc2 : (dependentsOf rest p).count n.ticket_number = 0 :=
        List.count_eq_zero.mpr (fun h => hnotin (mem_dependentsOf h))
      rw [hc1, hc2, hdeps]
      omega
    · have hc1 : ((n.depends_on.filter (fun d => d == p)).map
          (fun _ => n.ticket_number)).count t = 0 := by
        refine List.count_eq_zero.mpr ?_
        intro h
        rcases List.mem_map.mp h with ⟨-, -, heq⟩
        exact htn heq.symm
      have hdeps : depsOf (n :: rest) t = depsOf rest t := by
        unfold depsOf
        rw [nodeFor_cons_ne (fun h => htn h.symm)]
      rw [hc1, hdeps, ih hndr p t]
      omega

theorem mem_dagKeys {nodes : List DAGNode} {t : Int} :
    t ∈ dagKeys nodes ↔ t ∈ nodes.map DAGNode.ticket_number := List.mem_dedup

theorem dagKeys_nodup (nodes : List DAGNode) : (dagKeys nodes).Nodup := List.nodup_dedup _

theorem initInDeg_invariant (nodes : List DAGNode)
    (hnd : (nodes.map DAGNode.ticket_number).Nodup)
    (hclosed : ∀ n ∈ nodes, ∀ d ∈ n.depends_on, d ∈ nodes.map DAGNode.ticket_number) :
    ∀ t ∈ dagKeys nodes, initInDeg nodes t =
      (((depsOf nodes t).filter (fun d => d ∈ dagKeys nodes)).length : Int) := by
  intro t ht
  rcases List.mem_map.mp (mem_dagKeys.mp ht) with ⟨n, hn, rfl⟩
  have hfound := nodeFor_self hnd hn
  unfold initInDeg
  rw [hfound, depsOf_eq hnd hn]
  have : n.depends_on.filter (fun d => d ∈ dagKeys nodes) = n.depends_on :=
    List.filter_eq_self.mpr
      (fun d hd => by simpa using mem_dagKeys.mpr (hclosed n hn d hd))
  rw [this]
  rfl

theorem flatMap_tickets_unique {ws : List DAGWave}
    (hnd : (ws.flatMap DAGWave.tickets).Nodup) {d : Int} {w1 w2 : DAGWave}
    (h1 : w1 ∈ ws) (h2 : w2 ∈ ws) (hd1 : d ∈ w1.tickets) (hd2 : d ∈ w2.tickets) :
    w1 = w2 := by
  induction ws with
  | nil => cases h1
  | cons w rest ih =>
    rw [List.flatMap_cons, List.nodup_append] at hnd
    rcases List.mem_cons.mp h1 with rfl | h1' <;> rcases List.mem_cons.mp h2 with rfl | h2'
    · rfl
    · exact absurd (List.mem_flatMap.mpr ⟨w2, h2', hd2⟩) (fun h => hnd.2.2 hd1 h)
    · exact absurd (List.mem_flatMap.mpr ⟨w1, h1', hd1⟩) (fun h => hnd.2.2 hd2 h)
    · exact ih hnd.2.1 h1' h2'

/-- C1: on a well-formed acyclic graph (distinct tickets, all
prerequisites present, no dependency cycle) `topological_waves`
succeeds; the returned waves contain every ticket exactly once, and
every prerequisite's wave number is strictly less than its dependent's
wave number. -/
theorem topological_waves_acyclic_ok (nodes : List DAGNode)
    (hnd : (nodes.map DAGNode.ticket_number).Nodup)
    (hclosed : ∀ n ∈ nodes, ∀ d ∈ n.depends_on, d ∈ nodes.map DAGNode.ticket_number)
    (hacyc : Acyclic nodes) :
    ∃ ws, topological_waves nodes = .ok ws ∧
      (ws.flatMap DAGWave.tickets).Perm (nodes.map DAGNode.ticket_number) ∧
      (∀ t ∈ nodes.map DAGNode.ticket_number, (ws.flatMap DAGWave.tickets).count t = 1) ∧
      (∀ n ∈ nodes, ∀ d ∈ n.depends_on, ∀ w ∈ ws, ∀ w' ∈ ws,
        n.ticket_number ∈ w.tickets → d ∈ w'.tickets →
          w'.wave_number < w.wave_number) := by
  obtain ⟨ns', ws, heq, hperm, hge, hpair, hP3, hDE⟩ :=
    kahnLoop_ok (depsOf nodes) (dependentsOf nodes) (dependentsOf_count nodes hnd)
      (acyclic_depsOf hacyc) ((dagKeys nodes).length + 1) (dagKeys nodes)
      (initInDeg nodes) 1 nodes (Nat.lt_succ_self _) (dagKeys_nodup nodes)
      (initInDeg_invariant nodes hnd hclosed)
  have hkeys : dagKeys nodes = nodes.map DAGNode.ticket_number :=
    List.dedup_eq_self.mpr hnd
  have hok : topological_waves nodes = .ok ws := by
    unfold topological_waves topological_waves_full
    rw [heq]
  have hperm' : (ws.flatMap DAGWave.tickets).Perm (nodes.map DAGNode.ticket_number) := by
    rw [← hkeys]; exact hperm
  have hflatnd : (ws.flatMap DAGWave.tickets).Nodup := hperm'.nodup_iff.mpr hnd
  refine ⟨ws, hok, hperm', ?_, ?_⟩
  · intro t ht
    rw [hperm'.count_eq]
    exact List.count_eq_one_of_mem hnd ht
  · intro n hn d hd w hw w' hw' htw hdw'
    have hdeps : d ∈ depsOf nodes n.ticket_number := by rw [depsOf_eq hnd hn]; exact hd
    have hdk : d ∈ dagKeys nodes := mem_dagKeys.mpr (hclosed n hn d hd)
    obtain ⟨w'', hw'', hdw'', hlt⟩ := hP3 w hw n.ticket_number htw d hdeps hdk
    have : w' = w'' := flatMap_tickets_unique hflatnd hw' hw'' hdw' hdw''
    rw [this]
    exact hlt

/-- C1 witness: the two-node chain `2 → 1` is scheduled into waves
`[1]`, `[2]` with the prerequisite strictly earlier. -/
theorem topological_waves_acyclic_ok_witness :
    (([⟨1, [], -1⟩, ⟨2, [1], -1⟩] : List DAGNode).map DAGNode.ticket_number).Nodup ∧
    (∃ ws, topological_waves [⟨1, [], -1⟩, ⟨2, [1], -1⟩] = .ok ws ∧
      (ws.flatMap DAGWave.tickets).Perm
        (([⟨1, [], -1⟩, ⟨2, [1], -1⟩] : List DAGNode).map DAGNode.ticket_number) ∧
      (∀ t ∈ ([⟨1, [], -1⟩, ⟨2, [1], -1⟩] : List DAGNode).map DAGNode.ticket_number,
        (ws.flatMap DAGWave.tickets).count t = 1) ∧
      (∀ n ∈ ([⟨1, [], -1⟩, ⟨2, [1], -1⟩] : List DAGNode), ∀ d ∈ n.depends_on,
        ∀ w ∈ ws, ∀ w' ∈ ws, n.ticket_number ∈ w.tickets → d ∈ w'.tickets →
          w'.wave_number < w.wave_number)) := by
  have hacyc : Acyclic [⟨1, [], -1⟩, ⟨2, [1], -1⟩] := by
    have hedge : ∀ d t : Int, depEdge [⟨1, [], -1⟩, ⟨2, [1], -1⟩] d t → d = 1 ∧ t = 2 := by
      rintro d t ⟨n, hn, htick, hd⟩
      rcases List.mem_cons.mp hn with rfl | hn'
      · cases hd
      · rcases List.mem_cons.mp hn' with rfl | hn''
        · exact ⟨by simpa using hd, htick.symm⟩
        · cases hn''
    have hkey : ∀ a b : Int,
        Relation.TransGen (depEdge [⟨1, [], -1⟩, ⟨2, [1], -1⟩]) a b → a = 1 ∧ b = 2 := by
      intro a b h
      induction h with
      | single h => exact hedge _ _ h
      | tail hT hE ihead => exact ⟨ihead.1, (hedge _ _ hE).2⟩
    intro t ht
    have := hkey t t ht
    omega
  refine ⟨by decide, topological_waves_acyclic_ok _ (by decide) (by decide) hacyc⟩

/-- If some set `P` of tickets is such that every member has a
prerequisite in `P` (e.g. the vertex set of a cycle), its members can
never become ready, so the Kahn loop ends in the cycle error, whose
payload contains every member of `P`. -/
theorem kahnLoop_err (deps dependents : Int → List Int)
    (hdep : ∀ p t, (dependents p).count t = ((deps t).filter (fun d => d == p)).length)
    (P : Int → Prop)
    (hPdep : ∀ x, P x → ∃ d, P d ∧ d ∈ deps x) :
    ∀ (fuel : Nat) (remaining : List Int) (inDeg : Int → Int) (waveNum : Nat)
      (ns : List DAGNode),
      remaining.length < fuel → remaining.Nodup →
      (∀ t ∈ remaining, (((deps t).filter (fun d => d ∈ remaining)).length : Int) ≤ inDeg t) →
      (∀ x, P x → x ∈ remaining) →
      ∀ t₀, P t₀ →
      ∃ ns' l, kahnLoop dependents fuel remaining inDeg waveNum ns = (ns', .error l) ∧
        t₀ ∈ l := by
  intro fuel
  induction fuel with
  | zero => intro remaining _ _ _ hlt; omega
  | succ fuel ih =>
    intro remaining inDeg waveNum ns hlt hnd hge hPrem t₀ hPt₀
    have ht₀r : t₀ ∈ remaining := hPrem t₀ hPt₀
    have hre : ¬remaining.isEmpty = true := by
      rw [List.isEmpty_iff]
      exact fun h => by rw [h] at ht₀r; cases ht₀r
    -- every P-member has positive in-degree, hence stays in `remaining`
    have hPrem' : ∀ x, P x → x ∈ remaining.filter (fun u => !(inDeg u == 0)) := by
      intro x hPx
      obtain ⟨d, hPd, hd⟩ := hPdep x hPx
      have hdr : d ∈ remaining := hPrem d hPd
      have hpos : 1 ≤ inDeg x := by
        have hmem : d ∈ (deps x).filter (fun d => d ∈ remaining) :=
          List.mem_filter.mpr ⟨hd, by simpa using hdr⟩
        have hlen : 1 ≤ ((deps x).filter (fun d => d ∈ remaining)).length :=
          List.length_pos.mpr (List.ne_nil_of_mem hmem)
        have := hge x (hPrem x hPx)
        omega
      refine List.mem_filter.mpr ⟨hPrem x hPx, ?_⟩
      have : (inDeg x == 0) = false := by
        rw [beq_eq_false_iff_ne]
        omega
      simp [this]
    -- case split on whether anything is ready
    rcases hready : (remaining.filter (fun u => inDeg u == 0)).isEmpty with - | -
    · -- some ticket is ready: recurse
      have hne : remaining.filter (fun u => inDeg u == 0) ≠ [] := by
        intro h
        rw [h] at hready
        cases hready
      obtain ⟨m, hm⟩ := List.exists_mem_of_ne_nil _ hne
      have hm1 : m ∈ remaining := (List.mem_filter.mp hm).1
      have hmz : inDeg m = 0 := by
        have := (List.mem_filter.mp hm).2
        simpa using this
      have hlt' : (remaining.filter (fun u => !(inDeg u == 0))).length < fuel := by
        have := length_filter_lt_of_mem_not hm1 (f := fun u => !(inDeg u == 0))
          (by simp [hmz])
        omega
      have hge' : ∀ t ∈ remaining.filter (fun u => !(inDeg u == 0)),
          (((deps t).filter
            (fun d => d ∈ remaining.filter (fun u => !(inDeg u == 0)))).length : Int) ≤
          inDeg t -
            (((remaining.filter (fun x => inDeg x == 0)).map
              (fun p => (dependents p).count t)).sum : Int) := by
        intro t ht
        exact inDeg_step_ge deps dependents hdep remaining hnd inDeg t
          (List.mem_filter.mp ht).1 (hge t (List.mem_filter.mp ht).1)
      obtain ⟨ns', l, heq, hmem⟩ :=
        ih (remaining.filter (fun u => !(inDeg u == 0)))
          (fun c => inDeg c -
            (((remaining.filter (fun x => inDeg x == 0)).map
              (fun p => (dependents p).count c)).sum : Int))
          (waveNum + 1)
          ((remaining.filter (fun u => inDeg u == 0)).foldl
            (fun acc t => setWaveLast t (waveNum : Int) acc) ns)
          hlt' (hnd.filter _) hge' hPrem' t₀ hPt₀
      refine ⟨ns', l, ?_, hmem⟩
      rw [kahnLoop]
      dsimp only
      rw [if_neg hre, if_neg (by rw [hready]; exact Bool.false_ne_true), heq]
    · refine ⟨ns, sortInt remaining, ?_, mem_sortInt.mpr ht₀r⟩
      rw [kahnLoop]
      dsimp only
      rw [if_neg hre, if_pos hready]

theorem depEdge_iff_mem_depsOf {nodes : List DAGNode}
    (hnd : (nodes.map DAGNode.ticket_number).Nodup) {d t : Int} :
    depEdge nodes d t ↔ d ∈ depsOf nodes t := by
  constructor
  · rintro ⟨n, hn, rfl, hd⟩
    rw [depsOf_eq hnd hn]
    exact hd
  · exact mem_depsOf_edge

theorem mem_keys_of_depsOf {nodes : List DAGNode} {d t : Int}
    (h : d ∈ depsOf nodes t) : t ∈ nodes.map DAGNode.ticket_number := by
  rcases mem_depsOf_edge h with ⟨n, hn, rfl, -⟩
  exact List.mem_map.mpr ⟨n, hn, rfl⟩

/-- C3: on a graph (distinct tickets) containing a dependency cycle
through `t` — a self-dependency included — `topological_waves` fails
with the cycle error carrying the sorted unresolved ticket set, which
contains `t`; no wave list is produced. -/
theorem topological_waves_cycle_error (nodes : List DAGNode)
    (hnd : (nodes.map DAGNode.ticket_number).Nodup)
    (t : Int) (hcyc : Relation.TransGen (depEdge nodes) t t) :
    ∃ l, topological_waves nodes = .error l ∧ t ∈ l := by
  have hcyc' : Relation.TransGen (fun d t' => d ∈ depsOf nodes t') t t :=
    Relation.TransGen.mono (fun a b hab => (depEdge_iff_mem_depsOf hnd).mp hab) hcyc
  -- the set of tickets lying on a cycle through t
  let P : Int → Prop := fun x =>
    Relation.TransGen (fun d t' => d ∈ depsOf nodes t') x t ∧
    Relation.TransGen (fun d t' => d ∈ depsOf nodes t') t x
  have hPdep : ∀ x, P x → ∃ d, P d ∧ d ∈ depsOf nodes x := by
    rintro x ⟨hxt, htx⟩
    obtain ⟨p, htp, hpx⟩ := Relation.TransGen.tail'_iff.mp htx
    refine ⟨p, ⟨Relation.TransGen.head hpx hxt, ?_⟩, hpx⟩
    rcases Relation.reflTransGen_iff_eq_or_transGen.mp htp with rfl | h
    · exact hcyc'
    · exact h
  have hPrem : ∀ x, P x → x ∈ dagKeys nodes := by
    rintro x ⟨-, htx⟩
    obtain ⟨p, -, hpx⟩ := Relation.TransGen.tail'_iff.mp htx
    exact mem_dagKeys.mpr (mem_keys_of_depsOf hpx)
  have hge : ∀ u ∈ dagKeys nodes,
      (((depsOf nodes u).filter (fun d => d ∈ dagKeys nodes)).length : Int) ≤
        initInDeg nodes u := by
    intro u hu
    rcases List.mem_map.mp (mem_dagKeys.mp hu) with ⟨n, hn, rfl⟩
    unfold initInDeg
    rw [nodeFor_self hnd hn, depsOf_eq hnd hn]
    simp only [Option.map_some', Option.getD_some]
    exact_mod_cast List.length_filter_le _ _
  obtain ⟨ns', l, heq, hmem⟩ :=
    kahnLoop_err (depsOf nodes) (dependentsOf nodes) (dependentsOf_count nodes hnd)
      P hPdep ((dagKeys nodes).length + 1) (dagKeys nodes) (initInDeg nodes) 1 nodes
      (Nat.lt_succ_self _) (dagKeys_nodup nodes) hge hPrem t ⟨hcyc', hcyc'⟩
  refine ⟨l, ?_, hmem⟩
  unfold topological_waves topological_waves_full
  rw [heq]

/-- C3 witness: the self-dependent graph `{1 → 1}` fails with the cycle
error naming ticket 1 (concretely, the unresolved set is `[1]`). -/
theorem topological_waves_cycle_error_witness :
    (([⟨1, [1], -1⟩] : List DAGNode).map DAGNode.ticket_number).Nodup ∧
    (∃ l, topological_waves [⟨1, [1], -1⟩] = .error l ∧ (1 : Int) ∈ l) ∧
    topological_waves [⟨1, [1], -1⟩] = .error [1] :=
  ⟨by decide,
   topological_waves_cycle_error [⟨1, [1], -1⟩] (by decide) 1
     (Relation.TransGen.single ⟨⟨1, [1], -1⟩, by decide, rfl, by decide⟩),
   rfl⟩

theorem setWaveLast_eq_map {ns : List DAGNode}
    (hnd : (ns.map DAGNode.ticket_number).Nodup) (t w : Int) :
    setWaveLast t w ns =
      ns.map (fun nd => if nd.ticket_number = t then { nd with wave := w } else nd) := by
  induction ns with
  | nil => rfl
  | cons n rest ih =>
    have hndc : (n.ticket_number :: rest.map DAGNode.ticket_number).Nodup := by
      simpa using hnd
    have hrest_id : ∀ (hmem : t ∉ rest.map DAGNode.ticket_number),
        rest.map (fun nd => if nd.ticket_number = t then { nd with wave := w } else nd) =
          rest := by
      intro hmem
      have hpt : ∀ nd ∈ rest,
          (if nd.ticket_number = t then { nd with wave := w } else nd) = nd := by
        intro nd hndm
        exact if_neg (fun h => hmem (by rw [← h]; exact List.mem_map.mpr ⟨nd, hndm, rfl⟩))
      rw [List.map_congr_left hpt, List.map_id']
    rw [setWaveLast]
    by_cases hmem : t ∈ rest.map DAGNode.ticket_number
    · rw [if_pos hmem]
      have hne : n.ticket_number ≠ t := fun h =>
        (List.nodup_cons.mp hndc).1 (by rw [h]; exact hmem)
      rw [List.map_cons, if_neg hne, ih (List.nodup_cons.mp hndc).2]
    · rw [if_neg hmem]
      by_cases hnt : n.ticket_number = t
      · rw [if_pos hnt, List.map_cons, if_pos hnt, hrest_id hmem]
      · rw [if_neg hnt, List.map_cons, if_neg hnt, hrest_id hmem]

theorem foldl_setWave_eq_map (w : Int) :
    ∀ (ready : List Int) (ns : List DAGNode), (ns.map DAGNode.ticket_number).Nodup →
      ready.foldl (fun acc t => setWaveLast t w acc) ns =
        ns.map (fun nd => if nd.ticket_number ∈ ready then { nd with wave := w } else nd) := by
  intro ready
  induction ready with
  | nil =>
    intro ns _
    simp
  | cons r ready' ih =>
    intro ns hnd
    rw [List.foldl_cons, setWaveLast_eq_map hnd r w]
    have hnd' : ((ns.map (fun nd =>
        if nd.ticket_number = r then { nd with wave := w } else nd)).map
          DAGNode.ticket_number).Nodup := by
      rw [List.map_map]
      have : (DAGNode.ticket_number ∘ fun nd =>
          if nd.ticket_number = r then { nd with wave := w } else nd) =
          DAGNode.ticket_number := by
        funext nd
        by_cases h : nd.ticket_number = r <;> simp [h]
      rw [this]
      exact hnd
    rw [ih _ hnd', List.map_map]
    refine List.map_congr_left ?_
    intro nd _
    by_cases hr : nd.ticket_number = r
    · simp only [Function.comp_apply, if_pos hr]
      have h1 : ({ nd with wave := w } : DAGNode).ticket_number = nd.ticket_number := rfl
      by_cases h2 : nd.ticket_number ∈ ready'
      · simp [h1, h2, hr]
      · simp [h1, h2, hr]
    · simp only [Function.comp_apply, if_neg hr]
      by_cases h2 : nd.ticket_number ∈ ready'
      · simp [h2, hr, List.mem_cons]
      · simp [h2, hr, List.mem_cons]

theorem kahnLoop_nodes (dependents : Int → List Int) :
    ∀ (fuel : Nat) (remaining : List Int) (inDeg : Int → Int) (waveNum : Nat)
      (ns : List DAGNode),
      remaining.length < fuel → 1 ≤ waveNum →
      (ns.map DAGNode.ticket_number).Nodup →
      (∀ nd ∈ ns, (nd.ticket_number ∈ remaining → nd.wave = -1) ∧
        (nd.ticket_number ∉ remaining → 1 ≤ nd.wave)) →
      ∀ ns' l, kahnLoop dependents fuel remaining inDeg waveNum ns = (ns', .error l) →
        (ns'.map DAGNode.ticket_number = ns.map DAGNode.ticket_number ∧
         ns'.map DAGNode.depends_on = ns.map DAGNode.depends_on) ∧
        ∀ nd ∈ ns', (nd.ticket_number ∈ l → nd.wave = -1) ∧
          (nd.ticket_number ∉ l → 1 ≤ nd.wave) := by
  intro fuel
  induction fuel with
  | zero => intro remaining _ _ _ hlt; omega
  | succ fuel ih =>
    intro remaining inDeg waveNum ns hlt hwave hnd hinv ns' l heq
    rw [kahnLoop] at heq
    dsimp only at heq
    split at heq
    · -- remaining empty: returns ok, contradiction
      cases heq
    · split at heq
      · -- cycle error right here
        next hready =>
        have h1 : ns = ns' := congrArg Prod.fst heq
        have h2 : (Except.error (sortInt remaining) :
            Except (List Int) (List DAGWave)) = Except.error l := congrArg Prod.snd heq
        have hl : l = sortInt remaining := (Except.error.inj h2).symm
        subst h1
        refine ⟨⟨rfl, rfl⟩, ?_⟩
        intro nd hnd'
        rw [hl]
        constructor
        · intro hm
          exact (hinv nd hnd').1 (mem_sortInt.mp hm)
        · intro hm
          exact (hinv nd hnd').2 (fun h => hm (mem_sortInt.mpr h))
      · -- recurse
        next hremne hreadyne =>
        revert heq
        split
        · intro heq; cases heq
        · next ns'' l₂ heqrec =>
          intro heq
          have h1 : ns'' = ns' := congrArg Prod.fst heq
          have h2 : (Except.error l₂ : Except (List Int) (List DAGWave)) =
              Except.error l := congrArg Prod.snd heq
          have hl : l₂ = l := Except.error.inj h2
          subst h1; subst hl
          -- facts about the mutated node list
          have hmapform := foldl_setWave_eq_map (waveNum : Int)
            (remaining.filter (fun t => inDeg t == 0)) ns hnd
          have hticket_pres : ((remaining.filter (fun t => inDeg t == 0)).foldl
              (fun acc t => setWaveLast t (waveNum : Int) acc) ns).map
                DAGNode.ticket_number = ns.map DAGNode.ticket_number := by
            rw [hmapform, List.map_map]
            refine List.map_congr_left ?_
            intro nd _
            simp only [Function.comp_apply]
            split <;> rfl
          have hdeps_pres : ((remaining.filter (fun t => inDeg t == 0)).foldl
              (fun acc t => setWaveLast t (waveNum : Int) acc) ns).map
                DAGNode.depends_on = ns.map DAGNode.depends_on := by
            rw [hmapform, List.map_map]
            refine List.map_congr_left ?_
            intro nd _
            simp only [Function.comp_apply]
            split <;> rfl
          have hnd2 : (((remaining.filter (fun t => inDeg t == 0)).foldl
              (fun acc t => setWaveLast t (waveNum : Int) acc) ns).map
                DAGNode.ticket_number).Nodup := by
            rw [hticket_pres]; exact hnd
          have hne : remaining.filter (fun t => inDeg t == 0) ≠ [] := by
            intro h
            rw [List.isEmpty_iff] at hreadyne
            exact hreadyne h
          obtain ⟨m, hm⟩ := List.exists_mem_of_ne_nil _ hne
          have hm1 : m ∈ remaining := (List.mem_filter.mp hm).1
          have hmz : inDeg m = 0 := by
            have := (List.mem_filter.mp hm).2
            simpa using this
          have hlt' : (remaining.filter (fun t => !(inDeg t == 0))).length < fuel := by
            have := length_filter_lt_of_mem_not hm1 (f := fun t => !(inDeg t == 0))
              (by simp [hmz])
            omega
          have hinv' : ∀ nd ∈ (remaining.filter (fun t => inDeg t == 0)).foldl
              (fun acc t => setWaveLast t (waveNum : Int) acc) ns,
              (nd.ticket_number ∈ remaining.filter (fun t => !(inDeg t == 0)) →
                nd.wave = -1) ∧
              (nd.ticket_number ∉ remaining.filter (fun t => !(inDeg t == 0)) →
                1 ≤ nd.wave) := by
            intro nd' hnd'
            rw [hmapform] at hnd'
            rcases List.mem_map.mp hnd' with ⟨nd, hndm, rfl⟩
            by_cases hr : nd.ticket_number ∈ remaining.filter (fun t => inDeg t == 0)
            · rw [if_pos hr]
              constructor
              · intro hmem
                exfalso
                have ha := (List.mem_filter.mp hr).2
                have hb := (List.mem_filter.mp hmem).2
                rw [ha] at hb
                cases hb
              · intro _
                show (1 : Int) ≤ (waveNum : Int)
                exact_mod_cast hwave
            · rw [if_neg hr]
              constructor
              · intro hmem
                exact (hinv nd hndm).1 (List.mem_filter.mp hmem).1
              · intro hmem
                refine (hinv nd hndm).2 ?_
                intro hrem
                rcases hdeg : inDeg nd.ticket_number == 0 with - | -
                · exact hmem (List.mem_filter.mpr ⟨hrem, by simp [hdeg]⟩)
                · exact hr (List.mem_filter.mpr ⟨hrem, hdeg⟩)
          obtain ⟨⟨hmt, hmd⟩, hfinal⟩ := ih (remaining.filter (fun t => !(inDeg t == 0)))
            (fun c => inDeg c -
              (((remaining.filter (fun x => inDeg x == 0)).map
                (fun p => (dependents p).count c)).sum : Int))
            (waveNum + 1)
            ((remaining.filter (fun t => inDeg t == 0)).foldl
              (fun acc t => setWaveLast t (waveNum : Int) acc) ns)
            hlt' (Nat.le_succ_of_le hwave) hnd2 hinv' ns'' l₂ heqrec
          exact ⟨⟨hmt.trans hticket_pres, hmd.trans hdeps_pres⟩, hfinal⟩

/-- C10: when `topological_waves` raises the cycle error its node
mutations are not rolled back: tickets assigned before detection keep a
wave number `≥ 1`, tickets in the unresolved set still carry the `-1`
sentinel, and only the `wave` fields changed. -/
theorem topological_waves_error_mutation (nodes : List DAGNode)
    (hnd : (nodes.map DAGNode.ticket_number).Nodup)
    (hinit : ∀ nd ∈ nodes, nd.wave = -1)
    (ns' : List DAGNode) (l : List Int)
    (herr : topological_waves_full nodes = (ns', Except.error l)) :
    (ns'.map DAGNode.ticket_number = nodes.map DAGNode.ticket_number ∧
     ns'.map DAGNode.depends_on = nodes.map DAGNode.depends_on) ∧
    ∀ nd ∈ ns', (nd.ticket_number ∈ l → nd.wave = -1) ∧
      (nd.ticket_number ∉ l → 1 ≤ nd.wave) := by
  unfold topological_waves_full at herr
  refine kahnLoop_nodes (dependentsOf nodes) ((dagKeys nodes).length + 1) (dagKeys nodes)
    (initInDeg nodes) 1 nodes (Nat.lt_succ_self _) (Nat.le_refl _) hnd ?_ ns' l herr
  intro nd hndm
  constructor
  · intro _
    exact hinit nd hndm
  · intro hmem
    exact absurd (mem_dagKeys.mpr (List.mem_map.mpr ⟨nd, hndm, rfl⟩)) hmem

/-- C10 witness: on `{1; 2 → 2}` the loop assigns wave 1 to ticket 1,
then detects the cycle; the node list is left partially mutated
(`1 ↦ wave 1`, `2 ↦ wave -1`) while the error names `[2]`. -/
theorem topological_waves_error_mutation_witness :
    ((([⟨1, [], -1⟩, ⟨2, [2], -1⟩] : List DAGNode).map DAGNode.ticket_number).Nodup ∧
      topological_waves_full [⟨1, [], -1⟩, ⟨2, [2], -1⟩] =
        ([⟨1, [], 1⟩, ⟨2, [2], -1⟩], Except.error [2])) ∧
    ((([⟨1, [], 1⟩, ⟨2, [2], -1⟩] : List DAGNode).map DAGNode.ticket_number =
        ([⟨1, [], -1⟩, ⟨2, [2], -1⟩] : List DAGNode).map DAGNode.ticket_number ∧
      ([⟨1, [], 1⟩, ⟨2, [2], -1⟩] : List DAGNode).map DAGNode.depends_on =
        ([⟨1, [], -1⟩, ⟨2, [2], -1⟩] : List DAGNode).map DAGNode.depends_on) ∧
     ∀ nd ∈ ([⟨1, [], 1⟩, ⟨2, [2], -1⟩] : List DAGNode),
       (nd.ticket_number ∈ [(2 : Int)] → nd.wave = -1) ∧
       (nd.ticket_number ∉ [(2 : Int)] → 1 ≤ nd.wave)) :=
  ⟨⟨by decide, rfl⟩,
   topological_waves_error_mutation [⟨1, [], -1⟩, ⟨2, [2], -1⟩] (by decide) (by decide)
     [⟨1, [], 1⟩, ⟨2, [2], -1⟩] [2] rfl⟩

theorem lookupResult_mem {m : List (Int × ProcessingResult)} {t : Int}
    {v : ProcessingResult} (h : lookupResult m t = some v) : (t, v) ∈ m := by
  induction m with
  | nil => cases h
  | cons p rest ih =>
    rw [lookupResult] at h
    split at h
    · next heq =>
      cases h
      exact heq ▸ List.mem_cons_self _ _
    · exact List.mem_cons_of_mem _ (ih h)

theorem upsert_lookup_self (m : List (Int × ProcessingResult)) (k : Int)
    (v : ProcessingResult) : lookupResult (upsert m k v) k = some v := by
  induction m with
  | nil =>
    show lookupResult [(k, v)] k = some v
    rw [lookupResult, if_pos rfl]
  | cons p rest ih =>
    obtain ⟨k', v'⟩ := p
    show lookupResult (if k' = k then (k', v) :: rest else (k', v') :: upsert rest k v) k = _
    by_cases h : k' = k
    · rw [if_pos h, lookupResult, if_pos h]
    · rw [if_neg h, lookupResult, if_neg h]
      exact ih

theorem upsert_lookup_other (m : List (Int × ProcessingResult)) (k : Int)
    (v : ProcessingResult) (t : Int) (h : k ≠ t) :
    lookupResult (upsert m k v) t = lookupResult m t := by
  induction m with
  | nil =>
    show lookupResult [(k, v)] t = none
    rw [lookupResult, if_neg h]
    rfl
  | cons p rest ih =>
    obtain ⟨k', v'⟩ := p
    show lookupResult (if k' = k then (k', v) :: rest else (k', v') :: upsert rest k v) t = _
    by_cases hp : k' = k
    · rw [if_pos hp, lookupResult, lookupResult]
      have hkt : ¬ k' = t := by rw [hp]; exact h
      rw [if_neg hkt, if_neg hkt]
    · rw [if_neg hp, lookupResult, lookupResult]
      by_cases hpt : k' = t
      · rw [if_pos hpt, if_pos hpt]
      · rw [if_neg hpt, if_neg hpt]
        exact ih

theorem upsertAll_lookup_not_mem (adds : List (Int × ProcessingResult)) :
    ∀ (m : List (Int × ProcessingResult)) (t : Int), t ∉ adds.map Prod.fst →
      lookupResult (upsertAll m adds) t = lookupResult m t := by
  induction adds with
  | nil => intro m t _; rfl
  | cons p rest ih =>
    intro m t ht
    have h1 : p.1 ≠ t := fun h => ht (by rw [← h]; exact List.mem_map.mpr ⟨p, List.mem_cons_self _ _, rfl⟩)
    have h2 : t ∉ rest.map Prod.fst := fun h => ht (List.mem_cons_of_mem _ h)
    show lookupResult (upsertAll (upsert m p.1 p.2) rest) t = _
    rw [ih _ t h2, upsert_lookup_other _ _ _ _ h1]

theorem upsertAll_lookup_mem (adds : List (Int × ProcessingResult)) :
    ∀ (m : List (Int × ProcessingResult)) (t : Int) (v : ProcessingResult),
      (adds.map Prod.fst).Nodup → lookupResult adds t = some v →
      lookupResult (upsertAll m adds) t = some v := by
  induction adds with
  | nil => intro m t v _ h; cases h
  | cons p rest ih =>
    intro m t v hnd hl
    have hndc : (p.1 :: rest.map Prod.fst).Nodup := by simpa using hnd
    rw [lookupResult] at hl
    split at hl
    · next heq =>
      cases hl
      show lookupResult (upsertAll (upsert m p.1 p.2) rest) t = _
      rw [upsertAll_lookup_not_mem rest _ t
        (by rw [← heq]; exact (List.nodup_cons.mp hndc).1)]
      rw [← heq]
      exact upsert_lookup_self _ _ _
    · show lookupResult (upsertAll (upsert m p.1 p.2) rest) t = _
      exact ih _ t v (List.nodup_cons.mp hndc).2 hl

theorem overrideResult_lookup_self (m : List (Int × ProcessingResult)) (t : Int) :
    lookupResult (overrideResult m t) t = (lookupResult m t).map mergeFailOverride := by
  induction m with
  | nil => rfl
  | cons p rest ih =>
    show lookupResult ((if p.1 = t then (p.1, mergeFailOverride p.2) else p) ::
      overrideResult rest t) t = (lookupResult (p :: rest) t).map mergeFailOverride
    by_cases h : p.1 = t
    · rw [if_pos h, lookupResult, lookupResult, if_pos h, if_pos h]
      show some (mergeFailOverride p.2) = (some p.2).map mergeFailOverride
      rfl
    · rw [if_neg h, lookupResult, lookupResult, if_neg h, if_neg h]
      exact ih

theorem overrideResult_lookup_other (m : List (Int × ProcessingResult)) (u t : Int)
    (h : u ≠ t) : lookupResult (overrideResult m u) t = lookupResult m t := by
  induction m with
  | nil => rfl
  | cons p rest ih =>
    show lookupResult ((if p.1 = u then (p.1, mergeFailOverride p.2) else p) ::
      overrideResult rest u) t = lookupResult (p :: rest) t
    by_cases hp : p.1 = u
    · have hpt : ¬ p.1 = t := by rw [hp]; exact h
      rw [if_pos hp, lookupResult, lookupResult, if_neg hpt, if_neg hpt]
      exact ih
    · rw [if_neg hp, lookupResult, lookupResult]
      by_cases hpt : p.1 = t
      · rw [if_pos hpt, if_pos hpt]
      · rw [if_neg hpt, if_neg hpt]
        exact ih

theorem foldl_override_not_mem (l : List Int) :
    ∀ (m : List (Int × ProcessingResult)) (t : Int), t ∉ l →
      lookupResult (l.foldl (fun acc u => overrideResult acc u) m) t = lookupResult m t := by
  induction l with
  | nil => intro m t _; rfl
  | cons u rest ih =>
    intro m t ht
    have h1 : u ≠ t := fun h => ht (h ▸ List.mem_cons_self _ _)
    have h2 : t ∉ rest := fun h => ht (List.mem_cons_of_mem _ h)
    rw [List.foldl_cons, ih _ t h2, overrideResult_lookup_other _ _ _ h1]

theorem foldl_override_mem (l : List Int) :
    ∀ (m : List (Int × ProcessingResult)) (t : Int), l.Nodup → t ∈ l →
      lookupResult (l.foldl (fun acc u => overrideResult acc u) m) t =
        (lookupResult m t).map mergeFailOverride := by
  induction l with
  | nil => intro m t _ ht; cases ht
  | cons u rest ih =>
    intro m t hnd ht
    rcases List.mem_cons.mp ht with rfl | ht'
    · rw [List.foldl_cons, foldl_override_not_mem rest _ t (List.nodup_cons.mp hnd).1,
        overrideResult_lookup_self]
    · have h1 : u ≠ t := fun h => (List.nodup_cons.mp hnd).1 (h ▸ ht')
      rw [List.foldl_cons, ih _ t (List.nodup_cons.mp hnd).2 ht',
        overrideResult_lookup_other _ _ _ h1]

/-- Structural facts about any wave list the Kahn loop returns (no
acyclicity assumption): the waves partition `remaining` and
`DepsEarlier` holds. -/
theorem kahnLoop_facts (deps dependents : Int → List Int)
    (hdep : ∀ p t, (dependents p).count t = ((deps t).filter (fun d => d == p)).length) :
    ∀ (fuel : Nat) (remaining : List Int) (inDeg : Int → Int) (waveNum : Nat)
      (ns ns' : List DAGNode) (ws : List DAGWave),
      remaining.Nodup →
      (∀ t ∈ remaining, inDeg t = (((deps t).filter (fun d => d ∈ remaining)).length : Int)) →
      kahnLoop dependents fuel remaining inDeg waveNum ns = (ns', .ok ws) →
      (ws.flatMap DAGWave.tickets).Perm remaining ∧ DepsEarlier deps ws := by
  intro fuel
  induction fuel with
  | zero =>
    intro remaining inDeg waveNum ns ns' ws _ _ heq
    cases congrArg Prod.snd heq
  | succ fuel ih =>
    intro remaining inDeg waveNum ns ns' ws hnd hin heq
    rw [kahnLoop] at heq
    dsimp only at heq
    split at heq
    · next hre =>
      have hws : ws = [] := (Except.ok.inj (congrArg Prod.snd heq)).symm
      have hrem : remaining = [] := List.isEmpty_iff.mp hre
      subst hws; subst hrem
      exact ⟨List.Perm.refl _, trivial⟩
    · split at heq
      · cases congrArg Prod.snd heq
      · next hreadyne =>
        revert heq
        split
        · next ns'' ws' heqrec =>
          intro heq
          have hws : ws = ⟨waveNum, sortInt (remaining.filter (fun t => inDeg t == 0))⟩ ::
              ws' := (Except.ok.inj (congrArg Prod.snd heq)).symm
          subst hws
          have hin' : ∀ t ∈ remaining.filter (fun t => !(inDeg t == 0)),
              (fun c => inDeg c -
                (((remaining.filter (fun x => inDeg x == 0)).map
                  (fun p => (dependents p).count c)).sum : Int)) t =
              (((deps t).filter
                (fun d => d ∈ remaining.filter (fun x => !(inDeg x == 0)))).length : Int) := by
            intro t ht
            exact inDeg_step_eq deps dependents hdep remaining hnd inDeg t
              (List.mem_filter.mp ht).1 (hin t (List.mem_filter.mp ht).1)
          obtain ⟨hperm', hDE'⟩ := ih (remaining.filter (fun t => !(inDeg t == 0)))
            (fun c => inDeg c -
              (((remaining.filter (fun x => inDeg x == 0)).map
                (fun p => (dependents p).count c)).sum : Int))
            (waveNum + 1)
            ((remaining.filter (fun t => inDeg t == 0)).foldl
              (fun acc t => setWaveLast t (waveNum : Int) acc) ns)
            ns'' ws' (hnd.filter _) hin' heqrec
          have hperm : ((⟨waveNum,
              sortInt (remaining.filter (fun t => inDeg t == 0))⟩ :: ws' :
                List DAGWave).flatMap DAGWave.tickets).Perm remaining := by
            rw [List.flatMap_cons]
            exact ((sortInt_perm _).append hperm').trans (List.filter_append_perm _ _)
          refine ⟨hperm, ?_, hDE'⟩
          intro b hb d hd w' hw' hdw'
          have hbr : b ∈ remaining.filter (fun t => inDeg t == 0) := mem_sortInt.mp hb
          have hz : inDeg b = 0 := by
            have := (List.mem_filter.mp hbr).2
            simpa using this
          have hinb := hin b (List.mem_filter.mp hbr).1
          rw [hz] at hinb
          have hnil : (deps b).filter (fun d => d ∈ remaining) = [] := by
            have hlen : ((deps b).filter (fun d => d ∈ remaining)).length = 0 := by
              exact_mod_cast hinb.symm
            exact List.length_eq_zero.mp hlen
          have hdrem : d ∈ remaining := by
            have hflat : d ∈ (⟨waveNum,
                sortInt (remaining.filter (fun t => inDeg t == 0))⟩ :: ws' :
                  List DAGWave).flatMap DAGWave.tickets := by
              rw [List.flatMap_cons]
              rcases List.mem_cons.mp hw' with rfl | hw''
              · exact List.mem_append.mpr (.inl hdw')
              · exact List.mem_append.mpr (.inr (List.mem_flatMap.mpr ⟨w', hw'', hdw'⟩))
            exact hperm.mem_iff.mp hflat
          have : d ∈ (deps b).filter (fun d => d ∈ remaining) :=
            List.mem_filter.mpr ⟨hd, by simpa using hdrem⟩
          rw [hnil] at this
          cases this
        · next ns'' l heqrec =>
          intro heq
          cases congrArg Prod.snd heq

theorem build_dag_go_ok (tickets : List Int) (deps : List (Int × List Int)) :
    ∀ (l : List Int) (ns : List DAGNode), build_dag.go tickets deps l = .ok ns →
      ns = l.map (fun t => ⟨t, lookupDeps deps t, -1⟩) ∧
      ∀ t ∈ l, ∀ d ∈ lookupDeps deps t, d ∈ tickets := by
  intro l
  induction l with
  | nil =>
    intro ns h
    rw [build_dag.go] at h
    cases h
    exact ⟨rfl, by intro t ht; cases ht⟩
  | cons t rest ih =>
    intro ns h
    rw [build_dag.go] at h
    rcases hchk : checkDeps tickets t (lookupDeps deps t) with - | e
    · rw [hchk] at h
      rcases hgo : build_dag.go tickets deps rest with e' | ns'
      · rw [hgo] at h; cases h
      · rw [hgo] at h
        cases h
        obtain ⟨hshape, hclosed⟩ := ih ns' hgo
        refine ⟨by rw [List.map_cons, hshape], ?_⟩
        intro u hu d hd
        rcases List.mem_cons.mp hu with rfl | hu'
        · exact (checkDeps_none_iff tickets u (lookupDeps deps u)).mp hchk d hd
        · exact hclosed u hu' d hd
    · rw [hchk] at h
      cases h

theorem build_dag_ok_shape {tickets : List Int} {deps : List (Int × List Int)}
    {ns : List DAGNode} (h : build_dag tickets deps = .ok ns) :
    ns = tickets.map (fun t => ⟨t, lookupDeps deps t, -1⟩) ∧
    ∀ t ∈ tickets, ∀ d ∈ lookupDeps deps t, d ∈ tickets :=
  build_dag_go_ok tickets deps tickets ns h

theorem build_nodes_map_ticket (tickets : List Int) (deps : List (Int × List Int)) :
    ((tickets.map (fun t => (⟨t, lookupDeps deps t, -1⟩ : DAGNode))).map
      DAGNode.ticket_number) = tickets := by
  rw [List.map_map]
  exact List.map_id' _

theorem depsOf_build (tickets : List Int) (deps : List (Int × List Int))
    (hnd : tickets.Nodup) {t : Int} (ht : t ∈ tickets) :
    depsOf (tickets.map (fun t => ⟨t, lookupDeps deps t, -1⟩)) t = lookupDeps deps t := by
  have hnd' : ((tickets.map (fun t => (⟨t, lookupDeps deps t, -1⟩ : DAGNode))).map
      DAGNode.ticket_number).Nodup := by
    rw [build_nodes_map_ticket]; exact hnd
  have hmem : (⟨t, lookupDeps deps t, -1⟩ : DAGNode) ∈
      tickets.map (fun t => (⟨t, lookupDeps deps t, -1⟩ : DAGNode)) :=
    List.mem_map.mpr ⟨t, ht, rfl⟩
  exact depsOf_eq hnd' hmem

theorem lookupResult_of_mem_nodup {m : List (Int × ProcessingResult)}
    (hnd : (m.map Prod.fst).Nodup) {t : Int} {v : ProcessingResult} (h : (t, v) ∈ m) :
    lookupResult m t = some v := by
  induction m with
  | nil => cases h
  | cons p rest ih =>
    have hndc : (p.1 :: rest.map Prod.fst).Nodup := by simpa using hnd
    rcases List.mem_cons.mp h with rfl | h'
    · rw [lookupResult, if_pos rfl]
    · have hne : p.1 ≠ t := by
        intro heq
        exact (List.nodup_cons.mp hndc).1
          (by rw [heq]; exact List.mem_map.mpr ⟨(t, v), h', rfl⟩)
      rw [lookupResult, if_neg hne]
      exact ih (List.nodup_cons.mp hndc).2 h'

/-- Characterization of one `wave_step`: the new state is the processed
wave results upserted into the old ones, with some set `notMerged` of
completed-status tickets of the wave overridden and appended to the
failed set, and the runnable tickets appended to the invoked set. -/
theorem wave_step_eq (deps_for : Int → List Int) (o : RunOracles) (remote base : String)
    (now : Nat) (st : RunState) (wave : DAGWave) :
    ∃ notMerged : List Int,
      (wave_step deps_for o remote base now st wave).results =
        notMerged.foldl (fun acc u => overrideResult acc u)
          (upsertAll st.results (process_wave deps_for o.agent now wave st.failed).1) ∧
      (wave_step deps_for o remote base now st wave).failed =
        (st.failed ++
          ((process_wave deps_for o.agent now wave st.failed).1.filter
            (fun p => p.2.status == ProcessingStatus.failed)).map Prod.fst) ++ notMerged ∧
      (wave_step deps_for o remote base now st wave).invoked =
        st.invoked ++ (process_wave deps_for o.agent now wave st.failed).2 ∧
      (∀ x ∈ notMerged, ∃ p ∈ (process_wave deps_for o.agent now wave st.failed).1,
        p.1 = x ∧ p.2.status = ProcessingStatus.completed) := by
  simp only [wave_step]
  split
  · exact ⟨[], rfl, by simp, rfl, by intro x hx; cases hx⟩
  · refine ⟨_, rfl, rfl, rfl, ?_⟩
    intro x hx
    have hx1 := (List.mem_filter.mp hx).1
    rcases List.mem_map.mp hx1 with ⟨q, hq, rfl⟩
    rcases List.mem_filterMap.mp hq with ⟨p, hp, hf⟩
    refine ⟨p, hp, ?_⟩
    revert hf
    rcases p.2.branch_name with - | b
    · intro hf; cases hf
    · intro hf
      dsimp only at hf
      split at hf
      · next hcond =>
        cases hf
        exact ⟨rfl, hcond.1⟩
      · cases hf

theorem wave_step_failed_mono (deps_for : Int → List Int) (o : RunOracles)
    (remote base : String) (now : Nat) (st : RunState) (wave : DAGWave) :
    ∀ x ∈ st.failed, x ∈ (wave_step deps_for o remote base now st wave).failed := by
  obtain ⟨nm, -, hf, -, -⟩ := wave_step_eq deps_for o remote base now st wave
  intro x hx
  rw [hf]
  exact List.mem_append.mpr (.inl (List.mem_append.mpr (.inl hx)))

theorem wave_step_failed_origin (deps_for : Int → List Int) (o : RunOracles)
    (remote base : String) (now : Nat) (st : RunState) (wave : DAGWave) :
    ∀ x ∈ (wave_step deps_for o remote base now st wave).failed,
      x ∈ st.failed ∨ x ∈ wave.tickets := by
  obtain ⟨nm, -, hf, -, hnm⟩ := wave_step_eq deps_for o remote base now st wave
  intro x hx
  rw [hf] at hx
  rcases List.mem_append.mp hx with hx' | hx'
  · rcases List.mem_append.mp hx' with h | h
    · exact Or.inl h
    · rcases List.mem_map.mp h with ⟨p, hp, rfl⟩
      exact Or.inr (process_wave_keys_sub _ _ _ _ _ p (List.mem_filter.mp hp).1)
  · rcases hnm x hx' with ⟨p, hp, hp1, -⟩
    rw [← hp1]
    exact Or.inr (process_wave_keys_sub _ _ _ _ _ p hp)

theorem wave_step_results_frame (deps_for : Int → List Int) (o : RunOracles)
    (remote base : String) (now : Nat) (st : RunState) (wave : DAGWave)
    (t : Int) (ht : t ∉ wave.tickets) :
    lookupResult (wave_step deps_for o remote base now st wave).results t =
      lookupResult st.results t := by
  obtain ⟨nm, hr, -, -, hnm⟩ := wave_step_eq deps_for o remote base now st wave
  rw [hr]
  have htnm : t ∉ nm := by
    intro h
    rcases hnm t h with ⟨p, hp, hp1, -⟩
    rw [← hp1] at ht
    exact ht (process_wave_keys_sub _ _ _ _ _ p hp)
  have htk : t ∉ (process_wave deps_for o.agent now wave st.failed).1.map Prod.fst := by
    intro h
    rcases List.mem_map.mp h with ⟨p, hp, rfl⟩
    exact ht (process_wave_keys_sub _ _ _ _ _ p hp)
  rw [foldl_override_not_mem _ _ _ htnm, upsertAll_lookup_not_mem _ _ _ htk]

theorem wave_step_invoked_eq (deps_for : Int → List Int) (o : RunOracles)
    (remote base : String) (now : Nat) (st : RunState) (wave : DAGWave) :
    (wave_step deps_for o remote base now st wave).invoked =
      st.invoked ++ (process_wave deps_for o.agent now wave st.failed).2 := by
  obtain ⟨nm, -, -, hi, -⟩ := wave_step_eq deps_for o remote base now st wave
  exact hi

/-- A ticket of the wave with a failed prerequisite: its result in the
new state is the skip result, it is recorded failed, and it is not newly
invoked. -/
theorem wave_step_skip (deps_for : Int → List Int) (o : RunOracles)
    (remote base : String) (now : Nat) (st : RunState) (wave : DAGWave)
    (hW : wave.tickets.Nodup) (t : Int) (ht : t ∈ wave.tickets)
    (hpred : (deps_for t).any (fun d => decide (d ∈ st.failed)) = true) :
    lookupResult (wave_step deps_for o remote base now st wave).results t =
      some (skipResult now t) ∧
    t ∈ (wave_step deps_for o remote base now st wave).failed ∧
    ((t ∈ (wave_step deps_for o remote base now st wave).invoked) ↔ t ∈ st.invoked) := by
  obtain ⟨hlook, hninv⟩ :=
    process_wave_skip_core deps_for o.agent now wave st.failed t ht hpred
  have hkeysnd := process_wave_keys_nodup deps_for o.agent now wave st.failed hW
  have hmem : (t, skipResult now t) ∈
      (process_wave deps_for o.agent now wave st.failed).1 := lookupResult_mem hlook
  obtain ⟨nm, hr, hf, hi, hnm⟩ := wave_step_eq deps_for o remote base now st wave
  have htnm : t ∉ nm := by
    intro h
    rcases hnm t h with ⟨p, hp, hp1, hpc⟩
    have hpl : lookupResult (process_wave deps_for o.agent now wave st.failed).1 p.1 =
        some p.2 := lookupResult_of_mem_nodup hkeysnd hp
    rw [hp1, hlook] at hpl
    have : p.2 = skipResult now t := (Option.some.inj hpl).symm
    rw [this] at hpc
    cases hpc
  refine ⟨?_, ?_, ?_⟩
  · rw [hr, foldl_override_not_mem _ _ _ htnm]
    exact upsertAll_lookup_mem _ _ _ _ hkeysnd hlook
  · rw [hf]
    refine List.mem_append.mpr (.inl (List.mem_append.mpr (.inr ?_)))
    refine List.mem_map.mpr ⟨(t, skipResult now t), ?_, rfl⟩
    exact List.mem_filter.mpr ⟨hmem, by rfl⟩
  · rw [hi]
    constructor
    · intro h
      rcases List.mem_append.mp h with h' | h'
      · exact h'
      · exact absurd h' hninv
    · exact fun h => List.mem_append.mpr (.inl h)

/-- A runnable ticket whose agent result is completed with a nonempty
branch that fails to merge: its result is overridden to the merge
failure, it is recorded failed, and it was invoked. -/
theorem wave_step_merge_fail (deps_for : Int → List Int) (o : RunOracles)
    (remote base : String) (now : Nat) (st : RunState) (wave : DAGWave)
    (hW : wave.tickets.Nodup) (t : Int) (ht : t ∈ wave.tickets)
    (hpred : (deps_for t).any (fun d => decide (d ∈ st.failed)) = false)
    (br : String) (hstatus : (o.agent t).status = .completed)
    (hbr : (o.agent t).branch_name = some br) (hbrne : br ≠ "")
    (hmerge : o.mergeOk t br = false) :
    lookupResult (wave_step deps_for o remote base now st wave).results t =
      some (mergeFailOverride (o.agent t)) ∧
    t ∈ (wave_step deps_for o remote base now st wave).failed ∧
    t ∈ (wave_step deps_for o remote base now st wave).invoked := by
  obtain ⟨hlook, hinv⟩ :=
    process_wave_run_core deps_for o.agent now wave st.failed t ht hpred
  have hkeysnd := process_wave_keys_nodup deps_for o.agent now wave st.failed hW
  have hmem : (t, o.agent t) ∈ (process_wave deps_for o.agent now wave st.failed).1 :=
    lookupResult_mem hlook
  -- (t, br) is in the completed-branches list
  have hcb : (t, br) ∈ (process_wave deps_for o.agent now wave st.failed).1.filterMap
      (fun p => match p.2.branch_name with
        | some b => if p.2.status = .completed ∧ b ≠ "" then some (p.1, b) else none
        | none => none) := by
    refine List.mem_filterMap.mpr ⟨(t, o.agent t), hmem, ?_⟩
    dsimp only
    rw [hbr]
    show (if (o.agent t).status = ProcessingStatus.completed ∧ br ≠ "" then
        some (t, br) else none) = some (t, br)
    rw [if_pos ⟨hstatus, hbrne⟩]
  have hgfst : ∀ (p : Int × ProcessingResult) (q : Int × String),
      (match p.2.branch_name with
        | some b => if p.2.status = .completed ∧ b ≠ "" then some (p.1, b) else none
        | none => none) = some q → q.1 = p.1 := by
    intro p q hq
    revert hq
    rcases p.2.branch_name with - | b
    · intro hq; cases hq
    · intro hq
      dsimp only at hq
      split at hq
      · cases hq; rfl
      · cases hq
  have hcbnd : (((process_wave deps_for o.agent now wave st.failed).1.filterMap
      (fun p => match p.2.branch_name with
        | some b => if p.2.status = .completed ∧ b ≠ "" then some (p.1, b) else none
        | none => none)).map Prod.fst).Nodup :=
    (filterMap_fst_sublist _ hgfst _).nodup hkeysnd
  have hfind := find?_assoc_eq hcbnd hcb
  have hbranchOf : branchOf ((process_wave deps_for o.agent now wave st.failed).1.filterMap
      (fun p => match p.2.branch_name with
        | some b => if p.2.status = .completed ∧ b ≠ "" then some (p.1, b) else none
        | none => none)) t = br := by
    unfold branchOf
    rw [hfind]
    rfl
  -- unfold the step
  simp only [wave_step]
  split
  · next hempty =>
    exfalso
    rw [List.isEmpty_iff] at hempty
    rw [hempty] at hcb
    cases hcb
  · -- t is not merged
    have htm : t ∉ (merge_branches o.mergeOk remote base
        ((process_wave deps_for o.agent now wave st.failed).1.filterMap
          (fun p => match p.2.branch_name with
            | some b => if p.2.status = .completed ∧ b ≠ "" then some (p.1, b) else none
            | none => none))).1 := by
      rw [merge_branches_fst]
      intro hmm
      have := (List.mem_filter.mp hmm).2
      rw [hbranchOf] at this
      rw [hmerge] at this
      cases this
    have hcbk : t ∈ ((process_wave deps_for o.agent now wave st.failed).1.filterMap
        (fun p => match p.2.branch_name with
          | some b => if p.2.status = .completed ∧ b ≠ "" then some (p.1, b) else none
          | none => none)).map Prod.fst := List.mem_map.mpr ⟨(t, br), hcb, rfl⟩
    have htnm : t ∈ (((process_wave deps_for o.agent now wave st.failed).1.filterMap
        (fun p => match p.2.branch_name with
          | some b => if p.2.status = .completed ∧ b ≠ "" then some (p.1, b) else none
          | none => none)).map Prod.fst).filter
        (fun u => u ∉ (merge_branches o.mergeOk remote base
          ((process_wave deps_for o.agent now wave st.failed).1.filterMap
            (fun p => match p.2.branch_name with
              | some b => if p.2.status = .completed ∧ b ≠ "" then some (p.1, b) else none
              | none => none))).1) :=
      List.mem_filter.mpr ⟨hcbk, by simpa using htm⟩
    refine ⟨?_, ?_, ?_⟩
    · rw [foldl_override_mem _ _ _ (hcbnd.filter _) htnm,
        upsertAll_lookup_mem _ _ _ _ hkeysnd hlook]
      rfl
    · exact List.mem_append.mpr (.inr htnm)
    · exact List.mem_append.mpr (.inr hinv)

/-- Wrapper of `kahnLoop_facts` at the `topological_waves` entry point:
on a well-formed node list a successful wave computation partitions the
ticket keys and satisfies `DepsEarlier`. -/
theorem topological_waves_facts {nodes : List DAGNode} {ws : List DAGWave}
    (hnd : (nodes.map DAGNode.ticket_number).Nodup)
    (hclosed : ∀ n ∈ nodes, ∀ d ∈ n.depends_on, d ∈ nodes.map DAGNode.ticket_number)
    (h : topological_waves nodes = .ok ws) :
    (ws.flatMap DAGWave.tickets).Perm (dagKeys nodes) ∧ DepsEarlier (depsOf nodes) ws := by
  have hpair : topological_waves_full nodes = ((topological_waves_full nodes).1, .ok ws) := by
    rw [← h]; rfl
  exact kahnLoop_facts (depsOf nodes) (dependentsOf nodes)
    (dependentsOf_count nodes hnd) ((dagKeys nodes).length + 1) (dagKeys nodes)
    (initInDeg nodes) 1 nodes (topological_waves_full nodes).1 ws
    (dagKeys_nodup nodes) (initInDeg_invariant nodes hnd hclosed) hpair

theorem dagKeys_build (tickets : List Int) (deps : List (Int × List Int))
    (hnd : tickets.Nodup) :
    dagKeys (tickets.map (fun t => ⟨t, lookupDeps deps t, -1⟩)) = tickets := by
  unfold dagKeys
  rw [build_nodes_map_ticket]
  exact List.dedup_eq_self.mpr hnd

/-- Unfolding of a successful `dag_run` into its pipeline stages. -/
theorem dag_run_ok_destruct (o : RunOracles) (remote base : String) (now : Nat)
    (tickets : List Int) (deps : List (Int × List Int)) (out : RunOutcome)
    (h : dag_run o remote base now tickets deps = .ok out) :
    ∃ nodes waves, build_dag tickets deps = .ok nodes ∧
      topological_waves nodes = .ok waves ∧
      out.results = (waves.foldl (wave_step (depsOf nodes) o remote base now)
        { results := [], failed := [], conflicts := [], invoked := [] }).results ∧
      out.failed = (waves.foldl (wave_step (depsOf nodes) o remote base now)
        { results := [], failed := [], conflicts := [], invoked := [] }).failed ∧
      out.invoked = (waves.foldl (wave_step (depsOf nodes) o remote base now)
        { results := [], failed := [], conflicts := [], invoked := [] }).invoked := by
  rw [dag_run] at h
  rcases hb : build_dag tickets deps with e | nodes
  · rw [hb] at h; cases h
  · rw [hb] at h
    dsimp only at h
    rcases ht : topological_waves nodes with l | waves
    · rw [ht] at h; cases h
    · rw [ht] at h
      dsimp only at h
      have heq := (Except.ok.inj h).symm
      refine ⟨nodes, waves, rfl, ht, ?_, ?_, ?_⟩ <;> rw [heq]

theorem runWaves_failed_mono (deps_for : Int → List Int) (o : RunOracles)
    (remote base : String) (now : Nat) :
    ∀ (ws : List DAGWave) (st : RunState) (x : Int), x ∈ st.failed →
      x ∈ (ws.foldl (wave_step deps_for o remote base now) st).failed := by
  intro ws
  induction ws with
  | nil => intro st x hx; exact hx
  | cons w rest ih =>
    intro st x hx
    rw [List.foldl_cons]
    exact ih _ x (wave_step_failed_mono deps_for o remote base now st w x hx)

theorem runWaves_failed_origin (deps_for : Int → List Int) (o : RunOracles)
    (remote base : String) (now : Nat) :
    ∀ (ws : List DAGWave) (st : RunState) (x : Int),
      x ∈ (ws.foldl (wave_step deps_for o remote base now) st).failed →
      x ∈ st.failed ∨ ∃ w ∈ ws, x ∈ w.tickets := by
  intro ws
  induction ws with
  | nil => intro st x hx; exact Or.inl hx
  | cons w rest ih =>
    intro st x hx
    rw [List.foldl_cons] at hx
    rcases ih _ x hx with h | ⟨w', hw', hxw'⟩
    · rcases wave_step_failed_origin deps_for o remote base now st w x h with h' | h'
      · exact Or.inl h'
      · exact Or.inr ⟨w, List.mem_cons_self _ _, h'⟩
    · exact Or.inr ⟨w', List.mem_cons.mpr (.inr hw'), hxw'⟩

/-- A ticket belonging to none of the waves: its result entry and its
invocation status are untouched by the whole fold. -/
theorem runWaves_frame (deps_for : Int → List Int) (o : RunOracles)
    (remote base : String) (now : Nat) :
    ∀ (ws : List DAGWave) (st : RunState) (t : Int), (∀ w ∈ ws, t ∉ w.tickets) →
      lookupResult (ws.foldl (wave_step deps_for o remote base now) st).results t =
        lookupResult st.results t ∧
      ((t ∈ (ws.foldl (wave_step deps_for o remote base now) st).invoked) ↔
        t ∈ st.invoked) := by
  intro ws
  induction ws with
  | nil => intro st t _; exact ⟨rfl, Iff.rfl⟩
  | cons w rest ih =>
    intro st t ht
    rw [List.foldl_cons]
    obtain ⟨hr, hi⟩ := ih (wave_step deps_for o remote base now st w) t
      (fun w' hw' => ht w' (List.mem_cons.mpr (.inr hw')))
    refine ⟨hr.trans (wave_step_results_frame deps_for o remote base now st w t
      (ht w (List.mem_cons_self _ _))), ?_⟩
    rw [hi, wave_step_invoked_eq deps_for o remote base now st w]
    constructor
    · intro h
      rcases List.mem_append.mp h with h' | h'
      · exact h'
      · exact absurd (process_wave_runnable_sub deps_for o.agent now w st.failed t h')
          (ht w (List.mem_cons_self _ _))
    · exact fun h => List.mem_append.mpr (.inl h)

/-- Skip propagation through the whole fold: a ticket `y` of some wave
with a prerequisite `x` recorded failed by the end of the run is given
the skip result, recorded failed itself, and never invoked. -/
theorem runWaves_skip (deps_for : Int → List Int) (o : RunOracles)
    (remote base : String) (now : Nat) :
    ∀ (ws : List DAGWave) (st : RunState),
      (ws.flatMap DAGWave.tickets).Nodup →
      DepsEarlier deps_for ws →
      ∀ x y, x ∈ deps_for y → y ∈ ws.flatMap DAGWave.tickets →
        x ∈ (ws.foldl (wave_step deps_for o remote base now) st).failed →
        lookupResult (ws.foldl (wave_step deps_for o remote base now) st).results y =
          some (skipResult now y) ∧
        y ∈ (ws.foldl (wave_step deps_for o remote base now) st).failed ∧
        ((y ∈ (ws.foldl (wave_step deps_for o remote base now) st).invoked) ↔
          y ∈ st.invoked) := by
  intro ws
  induction ws with
  | nil => intro st _ _ x y _ hy _; cases hy
  | cons w rest ih =>
    intro st hnd hDE x y hxy hy hxf
    obtain ⟨hDE1, hDE2⟩ := hDE
    rw [List.flatMap_cons, List.nodup_append] at hnd
    obtain ⟨hndw, hndr, hdisj⟩ := hnd
    rw [List.flatMap_cons] at hy
    rw [List.foldl_cons] at hxf ⊢
    rcases List.mem_append.mp hy with hyw | hyr
    · -- y is in the head wave; x cannot be in any current-or-later wave
      have hxnw : ∀ w' ∈ w :: rest, x ∉ w'.tickets := hDE1 y hyw x hxy
      have hxst : x ∈ st.failed := by
        rcases runWaves_failed_origin deps_for o remote base now rest
            (wave_step deps_for o remote base now st w) x hxf with h | ⟨w', hw', hxw'⟩
        · rcases wave_step_failed_origin deps_for o remote base now st w x h with h' | h'
          · exact h'
          · exact absurd h' (hxnw w (List.mem_cons_self _ _))
        · exact absurd hxw' (hxnw w' (List.mem_cons.mpr (.inr hw')))
      have hpred : (deps_for y).any (fun d => decide (d ∈ st.failed)) = true :=
        List.any_eq_true.mpr ⟨x, hxy, decide_eq_true hxst⟩
      obtain ⟨hr1, hf1, hi1⟩ :=
        wave_step_skip deps_for o remote base now st w hndw y hyw hpred
      have hynr : ∀ w' ∈ rest, y ∉ w'.tickets := by
        intro w' hw' hyw'
        exact hdisj hyw (List.mem_flatMap.mpr ⟨w', hw', hyw'⟩)
      obtain ⟨hr2, hi2⟩ := runWaves_frame deps_for o remote base now rest
        (wave_step deps_for o remote base now st w) y hynr
      exact ⟨hr2.trans hr1,
        runWaves_failed_mono deps_for o remote base now rest _ y hf1,
        hi2.trans hi1⟩
    · -- y is in a later wave
      have hyr' : y ∈ rest.flatMap DAGWave.tickets := hyr
      obtain ⟨hr, hf, hi⟩ := ih (wave_step deps_for o remote base now st w)
        hndr hDE2 x y hxy hyr' hxf
      refine ⟨hr, hf, ?_⟩
      rw [hi, wave_step_invoked_eq deps_for o remote base now st w]
      constructor
      · intro h
        rcases List.mem_append.mp h with h' | h'
        · exact h'
        · exact absurd hyr'
            (hdisj (process_wave_runnable_sub deps_for o.agent now w st.failed y h'))
      · exact fun h => List.mem_append.mpr (.inl h)

/-- Merge-failure override through the whole fold: a ticket of some wave
none of whose prerequisites ever fail, whose agent result is completed
with a nonempty branch that the merge oracle rejects, ends with the
overridden result, is recorded failed, and was invoked. -/
theorem runWaves_merge_fail (deps_for : Int → List Int) (o : RunOracles)
    (remote base : String) (now : Nat) :
    ∀ (ws : List DAGWave) (st : RunState),
      (ws.flatMap DAGWave.tickets).Nodup →
      ∀ t ∈ ws.flatMap DAGWave.tickets,
      (∀ d ∈ deps_for t,
        d ∉ (ws.foldl (wave_step deps_for o remote base now) st).failed) →
      ∀ br : String, (o.agent t).status = .completed →
      (o.agent t).branch_name = some br → br ≠ "" →
      o.mergeOk t br = false →
        lookupResult (ws.foldl (wave_step deps_for o remote base now) st).results t =
          some (mergeFailOverride (o.agent t)) ∧
        t ∈ (ws.foldl (wave_step deps_for o remote base now) st).failed ∧
        t ∈ (ws.foldl (wave_step deps_for o remote base now) st).invoked := by
  intro ws
  induction ws with
  | nil => intro st _ t ht; cases ht
  | cons w rest ih =>
    intro st hnd t ht hdep br hstatus hbr hbrne hmerge
    rw [List.flatMap_cons, List.nodup_append] at hnd
    obtain ⟨hndw, hndr, hdisj⟩ := hnd
    rw [List.flatMap_cons] at ht
    rw [List.foldl_cons] at hdep ⊢
    rcases List.mem_append.mp ht with htw | htr
    · have hpred : (deps_for t).any (fun d => decide (d ∈ st.failed)) = false := by
        by_cases hany : (deps_for t).any (fun d => decide (d ∈ st.failed)) = true
        · exfalso
          rcases List.any_eq_true.mp hany with ⟨d, hd, hds⟩
          exact hdep d hd (runWaves_failed_mono deps_for o remote base now rest _ d
            (wave_step_failed_mono deps_for o remote base now st w d
              (of_decide_eq_true hds)))
        · exact Bool.eq_false_iff.mpr hany
      obtain ⟨hr1, hf1, hi1⟩ := wave_step_merge_fail deps_for o remote base now st w
        hndw t htw hpred br hstatus hbr hbrne hmerge
      have htnr : ∀ w' ∈ rest, t ∉ w'.tickets := by
        intro w' hw' htw'
        exact hdisj htw (List.mem_flatMap.mpr ⟨w', hw', htw'⟩)
      obtain ⟨hr2, hi2⟩ := runWaves_frame deps_for o remote base now rest
        (wave_step deps_for o remote base now st w) t htnr
      exact ⟨hr2.trans hr1,
        runWaves_failed_mono deps_for o remote base now rest _ t hf1,
        hi2.mpr hi1⟩
    · exact ih (wave_step deps_for o remote base now st w)
        hndr t htr hdep br hstatus hbr hbrne hmerge

/-- One propagation step at the level of a whole run: a ticket `y` with
a declared prerequisite `x` recorded failed by the end of the run is
given the skip result, recorded failed, and never invoked. -/
theorem dag_run_skip_of_dep_failed (o : RunOracles) (remote base : String) (now : Nat)
    (tickets : List Int) (deps : List (Int × List Int)) (out : RunOutcome)
    (hT : tickets.Nodup)
    (h : dag_run o remote base now tickets deps = .ok out)
    (x y : Int) (hy : y ∈ tickets) (hxy : x ∈ lookupDeps deps y)
    (hxf : x ∈ out.failed) :
    lookupResult out.results y = some (skipResult now y) ∧
    y ∈ out.failed ∧ y ∉ out.invoked := by
  obtain ⟨nodes, waves, hb, htw, hres, hfail, hinv⟩ :=
    dag_run_ok_destruct o remote base now tickets deps out h
  obtain ⟨hshape, hclosed⟩ := build_dag_ok_shape hb
  subst hshape
  have hndn : ((tickets.map (fun t => (⟨t, lookupDeps deps t, -1⟩ : DAGNode))).map
      DAGNode.ticket_number).Nodup := by
    rw [build_nodes_map_ticket]; exact hT
  have hclosed' : ∀ n ∈ tickets.map (fun t => (⟨t, lookupDeps deps t, -1⟩ : DAGNode)),
      ∀ d ∈ n.depends_on,
      d ∈ (tickets.map (fun t => (⟨t, lookupDeps deps t, -1⟩ : DAGNode))).map
        DAGNode.ticket_number := by
    rw [build_nodes_map_ticket]
    intro n hn d hd
    rcases List.mem_map.mp hn with ⟨u, hu, rfl⟩
    exact hclosed u hu d hd
  obtain ⟨hperm, hDE⟩ := topological_waves_facts hndn hclosed' htw
  rw [dagKeys_build tickets deps hT] at hperm
  have hwnd : (waves.flatMap DAGWave.tickets).Nodup := hperm.nodup_iff.mpr hT
  have hyflat : y ∈ waves.flatMap DAGWave.tickets := hperm.mem_iff.mpr hy
  have hxy' : x ∈ depsOf
      (tickets.map (fun t => (⟨t, lookupDeps deps t, -1⟩ : DAGNode))) y := by
    rw [depsOf_build tickets deps hT hy]; exact hxy
  obtain ⟨h1, h2, h3⟩ := runWaves_skip
    (depsOf (tickets.map (fun t => (⟨t, lookupDeps deps t, -1⟩ : DAGNode))))
    o remote base now waves { results := [], failed := [], conflicts := [], invoked := [] }
    hwnd hDE x y hxy' hyflat (by rw [← hfail]; exact hxf)
  refine ⟨by rw [hres]; exact h1, by rw [hfail]; exact h2, ?_⟩
  rw [hinv]
  intro hmem
  exact absurd (h3.mp hmem) (List.not_mem_nil y)

/-- C2: once a ticket is recorded as failed by the end of a run (by
direct execution failure, by propagated skip, or by merge failure),
every ticket transitively depending on it is given the synthetic skip
result, is itself recorded failed, and the work-agent is never invoked
for it in that run. -/
theorem dag_run_failure_propagates (o : RunOracles) (remote base : String) (now : Nat)
    (tickets : List Int) (deps : List (Int × List Int)) (out : RunOutcome)
    (hT : tickets.Nodup)
    (h : dag_run o remote base now tickets deps = .ok out)
    (a b : Int)
    (hab : Relation.TransGen (fun u v => u ∈ lookupDeps deps v ∧ v ∈ tickets) a b)
    (ha : a ∈ out.failed) :
    lookupResult out.results b = some (skipResult now b) ∧
    b ∈ out.failed ∧ b ∉ out.invoked := by
  induction hab with
  | single hstep =>
    exact dag_run_skip_of_dep_failed o remote base now tickets deps out hT h a _
      hstep.2 hstep.1 ha
  | tail hac hstep ih =>
    exact dag_run_skip_of_dep_failed o remote base now tickets deps out hT h _ _
      hstep.2 hstep.1 ih.2.1

/-- Work-agent oracle for the propagation witness: ticket 1 fails
directly, every other ticket would complete on a branch. -/
def wSkipAgent : Int → ProcessingResult := fun t =>
  if t = 1 then
    { issue_number := t, status := .failed, error_message := some "boom",
      started_at := some 0, completed_at := some 0 }
  else
    { issue_number := t, status := .completed, branch_name := some "feat",
      started_at := some 0, completed_at := some 0 }

def wSkipOracles : RunOracles :=
  { agent := wSkipAgent, mergeOk := fun _ _ => true, diff := fun _ _ => none }

theorem dag_run_failure_propagates_witness :
    ([1, 2, 3] : List Int).Nodup ∧ ∃ out : RunOutcome,
      dag_run wSkipOracles "origin" "main" 7 [1, 2, 3] [(2, [1]), (3, [2])] = .ok out ∧
      1 ∈ out.failed ∧
      (lookupResult out.results 3 = some (skipResult 7 3) ∧
        3 ∈ out.failed ∧ 3 ∉ out.invoked) := by
  have h12 : Relation.TransGen
      (fun u v : Int => u ∈ lookupDeps [(2, [1]), (3, [2])] v ∧ v ∈ [1, 2, 3]) 1 2 :=
    Relation.TransGen.single ⟨by decide, by decide⟩
  have hab : Relation.TransGen
      (fun u v : Int => u ∈ lookupDeps [(2, [1]), (3, [2])] v ∧ v ∈ [1, 2, 3]) 1 3 :=
    h12.tail ⟨by decide, by decide⟩
  refine ⟨by decide, _, rfl, by decide, ?_⟩
  exact dag_run_failure_propagates wSkipOracles "origin" "main" 7 [1, 2, 3]
    [(2, [1]), (3, [2])] _ (by decide) rfl 1 3 hab (by decide)

/-- C6: a ticket none of whose prerequisites ever fail, whose agent
result is completed with a nonempty branch that the merge oracle
rejects, ends the run with its previously-completed result overridden
in place — status set to failed and error message set to
"Merge into main failed", all other fields untouched — and the ticket
is in the run's failed set (hence counted by the aggregate failed
count) even though the work-agent was invoked for it and completed. -/
theorem dag_run_merge_override (o : RunOracles) (remote base : String) (now : Nat)
    (tickets : List Int) (deps : List (Int × List Int)) (out : RunOutcome)
    (hT : tickets.Nodup)
    (h : dag_run o remote base now tickets deps = .ok out)
    (t : Int) (ht : t ∈ tickets)
    (hdeps : ∀ d ∈ lookupDeps deps t, d ∉ out.failed)
    (br : String) (hstatus : (o.agent t).status = .completed)
    (hbr : (o.agent t).branch_name = some br) (hbrne : br ≠ "")
    (hmerge : o.mergeOk t br = false) :
    lookupResult out.results t =
      some { o.agent t with
             status := .failed,
             error_message := some "Merge into main failed" } ∧
    t ∈ out.failed ∧ t ∈ out.invoked := by
  obtain ⟨nodes, waves, hb, htw, hres, hfail, hinv⟩ :=
    dag_run_ok_destruct o remote base now tickets deps out h
  obtain ⟨hshape, hclosed⟩ := build_dag_ok_shape hb
  subst hshape
  have hndn : ((tickets.map (fun t => (⟨t, lookupDeps deps t, -1⟩ : DAGNode))).map
      DAGNode.ticket_number).Nodup := by
    rw [build_nodes_map_ticket]; exact hT
  have hclosed' : ∀ n ∈ tickets.map (fun t => (⟨t, lookupDeps deps t, -1⟩ : DAGNode)),
      ∀ d ∈ n.depends_on,
      d ∈ (tickets.map (fun t => (⟨t, lookupDeps deps t, -1⟩ : DAGNode))).map
        DAGNode.ticket_number := by
    rw [build_nodes_map_ticket]
    intro n hn d hd
    rcases List.mem_map.mp hn with ⟨u, hu, rfl⟩
    exact hclosed u hu d hd
  obtain ⟨hperm, -⟩ := topological_waves_facts hndn hclosed' htw
  rw [dagKeys_build tickets deps hT] at hperm
  have hwnd : (waves.flatMap DAGWave.tickets).Nodup := hperm.nodup_iff.mpr hT
  have htflat : t ∈ waves.flatMap DAGWave.tickets := hperm.mem_iff.mpr ht
  have hdep' : ∀ d ∈ depsOf
      (tickets.map (fun t => (⟨t, lookupDeps deps t, -1⟩ : DAGNode))) t,
      d ∉ (waves.foldl (wave_step (depsOf
        (tickets.map (fun t => (⟨t, lookupDeps deps t, -1⟩ : DAGNode)))) o remote base now)
        { results := [], failed := [], conflicts := [], invoked := [] }).failed := by
    intro d hd
    rw [depsOf_build tickets deps hT ht] at hd
    rw [← hfail]
    exact hdeps d hd
  obtain ⟨h1, h2, h3⟩ := runWaves_merge_fail
    (depsOf (tickets.map (fun t => (⟨t, lookupDeps deps t, -1⟩ : DAGNode))))
    o remote base now waves { results := [], failed := [], conflicts := [], invoked := [] }
    hwnd t htflat hdep' br hstatus hbr hbrne hmerge
  exact ⟨by rw [hres]; exact h1, by rw [hfail]; exact h2, by rw [hinv]; exact h3⟩

/-- Work-agent oracle for the merge-failure witness: every ticket
completes on a branch, but no branch merges. -/
def wMergeAgent : Int → ProcessingResult := fun t =>
  { issue_number := t, status := .completed, branch_name := some "feature-10",
    started_at := some 0, completed_at := some 0 }

def wMergeOracles : RunOracles :=
  { agent := wMergeAgent, mergeOk := fun _ _ => false, diff := fun _ _ => none }

theorem dag_run_merge_override_witness :
    ([10] : List Int).Nodup ∧ ∃ out : RunOutcome,
      dag_run wMergeOracles "origin" "main" 3 [10] [] = .ok out ∧
      (lookupResult out.results 10 =
        some { wMergeOracles.agent 10 with
               status := .failed,
               error_message := some "Merge into main failed" } ∧
        10 ∈ out.failed ∧ 10 ∈ out.invoked) := by
  refine ⟨by decide, _, rfl, ?_⟩
  exact dag_run_merge_override wMergeOracles "origin" "main" 3 [10] [] _ (by decide)
    rfl 10 (by decide) (fun d hd => absurd hd (List.not_mem_nil d)) "feature-10"
    rfl rfl (by decide) rfl

end AutoClaude
